import Mathlib

/-!
Verification of the masked-hamming-memory repository.

A shallow embedding, in Lean 4, of the parts of the repository that the
frozen claims C1-C10 talk about:

* the masked Hamming distance kernel of `src/src/distance_.rs`
  (`naive`, `distance_fast`, `distance`), including the word-at-a-time
  fast path with its tree-merge popcount, modelled faithfully over `Nat`
  with explicit reduction modulo `2 ^ 64`;
* the bit accessors `get_bit` / `put_bit` of `src/mhd_memory/src/util.rs`
  and `Sample::get_bit` / `Sample::set_bit` of
  `src/src/mhd_method/sample.rs`;
* the associative memory of `src/mhd_memory/src/mhdmemory.rs`
  (`write_sample`, `search`, `masked_read`, `calculate_priority`,
  `read_2_priorities`), with the `f64` arithmetic of the reads embedded
  as exact rationals;
* `MinimalSolution` of `src/mhd_optimization/src/optimizer/solution.rs`,
  `ProblemSubsetSum` of
  `src/mhd_optimization/src/implementations/subset_sum_problem.rs`
  (`solution_scoreI`, `solution_best_scoreI`, `apply_rulesI`,
  `rules_audit_passedI`, `random_solutionI`, `starting_solutionI`),
  the driver loop `Solver::find_best_solution` of
  `src/mhd_optimization/src/optimizer/solver.rs`, and
  `MhdMonteCarloSolver::is_finished` of
  `src/mhd_optimization/src/implementations/mhd_mc_solver.rs`.

`ScoreType` is `u32` (declared in the historical crate under
`src/src`): every score addition and subtraction of the subset-sum
problem and its solver is embedded as `Nat` arithmetic with explicit
reduction modulo `2 ^ 32` (`wadd32` / `wsub32`), the wrapping release
semantics of Rust.  Ideal-arithmetic variants of those definitions
(suffix `I`, unbounded `Nat`) organise the proofs and express the
spec-level, non-wrapping weight of a selection; agreement lemmas show
each wrapped definition equal to its ideal variant whenever the weight
sum and the capacity fit in `u32`, and the overflow counterexamples
evaluate the wrapped definitions where they do not.  Byte buffers are
`List Nat` whose entries are understood
modulo 256; every operation below manipulates them exactly as the Rust
does (the `u8` bitwise operations never produce values above 255 from
values below 256, and the bit accessors read only the low 8 bits).

Runtime pointer alignment (the `align_to` split used by `distance_fast`)
is not a function of the byte values; it enters the model as explicit
offset parameters, one per slice, quantified over in the theorems.

The memory crate `mhd_memory` re-exports a `sample` and a `distance_`
module whose files are not under `src/`; those two leaves (the `Sample`
record with its MSB-first `get_bit`, the popcount `weight`, and the
masked distance used by the memory) are modelled from the spec, as
marked in their doc comments.  All other definitions are translated
from the Rust sources named above.

Floating-point (`f64`) sums and quotients inside the memory reads are
embedded as exact rational arithmetic; every concrete evaluation used
by a counterexample below is exact in `f64` as well (sums of small
integers and halves), so the rational model and the compiled code agree
on those inputs.  The `powf` expression inside `distance_multiplier`
(method 2) is irrational; `read_2_priorities` is therefore parameterised
over the multiplier function, and the claim about it is proved for every
multiplier, the compiled one included.
-/

set_option maxRecDepth 10000

namespace MHM

/-- Population count of a natural number, used for `count_ones()` on
`u8` and `u64` values.  Defined with an explicit structural fuel so that
the kernel can evaluate it on concrete 64-bit values. -/
def popcountAux : Nat → Nat → Nat
  | 0, _ => 0
  | fuel + 1, n => if n = 0 then 0 else n % 2 + popcountAux fuel (n / 2)

/-- Number of 1-bits of `n` (`n.count_ones()` in Rust). -/
def popcount (n : Nat) : Nat := popcountAux n n

/-- The scalar fallback `naive` of `src/src/distance_.rs`:
`mask.iter().zip(x.iter().zip(y)).fold(0, |a, (m, (b, c))| a + (*m & (*b ^ *c)).count_ones())`. -/
def naive (mask x y : List Nat) : Nat :=
  (mask.zip (x.zip y)).foldl
    (fun a mbc => a + popcount (mbc.1 &&& (mbc.2.1 ^^^ mbc.2.2))) 0

/-! ## The `distance_fast` fast path, modelled word for word

`distance_fast` reinterprets the three byte slices as slices of
`T30 = [u64; 30]` (240-byte blocks) via `util::align_to`, processes the
unaligned head and tail with `naive`, and runs the tree-merge popcount
of the masked xor over each 240-byte block.  The `u64` arithmetic below
is carried out on `Nat` with explicit wrapping (`% 2 ^ 64`), exactly as
release-mode Rust does; `u64` loads are little-endian, which is
immaterial here because all three slices are decomposed into words the
same way. -/

/-- Wrapping 64-bit addition. -/
def wadd (a b : Nat) : Nat := (a + b) % 2 ^ 64

/-- Wrapping 64-bit subtraction (for `a`, `b` both below `2 ^ 64`). -/
def wsub (a b : Nat) : Nat := (a + (2 ^ 64 - b % 2 ^ 64)) % 2 ^ 64

/-- The constant `M1 = 0x5555555555555555` of `distance_fast`. -/
def M1 : Nat := 0x5555555555555555

/-- The constant `M2 = 0x3333333333333333` of `distance_fast`. -/
def M2 : Nat := 0x3333333333333333

/-- The constant `M4 = 0x0F0F0F0F0F0F0F0F` of `distance_fast`. -/
def M4 : Nat := 0x0F0F0F0F0F0F0F0F

/-- The constant `M8 = 0x00FF00FF00FF00FF` of `distance_fast`. -/
def M8 : Nat := 0x00FF00FF00FF00FF

/-- Little-endian `u64` word number `j` of a byte list. -/
def wordAt (bs : List Nat) (j : Nat) : Nat :=
  bs.getD (8 * j) 0 +
    bs.getD (8 * j + 1) 0 * 2 ^ 8 +
    bs.getD (8 * j + 2) 0 * 2 ^ 16 +
    bs.getD (8 * j + 3) 0 * 2 ^ 24 +
    bs.getD (8 * j + 4) 0 * 2 ^ 32 +
    bs.getD (8 * j + 5) 0 * 2 ^ 40 +
    bs.getD (8 * j + 6) 0 * 2 ^ 48 +
    bs.getD (8 * j + 7) 0 * 2 ^ 56

/-- One iteration of the `for j_ in 0..10` loop of `distance_fast`,
operating on the three `u64` words of triple `jtriple` of a 240-byte
block.  Note the faithful reproduction of the source's third masked
xor: `let mut half1 = mask_array[j+1] & (array1[j+2] ^ array2[j+2]);`
reads the mask word at index `j + 1`, not `j + 2`. -/
def tripleAcc (mb xb yb : List Nat) (jtriple : Nat) : Nat :=
  let j := 3 * jtriple
  let count1 := wordAt mb j &&& (wordAt xb j ^^^ wordAt yb j)
  let count2 := wordAt mb (j + 1) &&& (wordAt xb (j + 1) ^^^ wordAt yb (j + 1))
  let half1 := wordAt mb (j + 1) &&& (wordAt xb (j + 2) ^^^ wordAt yb (j + 2))
  let half2 := half1
  let half1 := half1 &&& M1
  let half2 := (half2 >>> 1) &&& M1
  let count1 := wsub count1 ((count1 >>> 1) &&& M1)
  let count2 := wsub count2 ((count2 >>> 1) &&& M1)
  let count1 := wadd count1 half1
  let count2 := wadd count2 half2
  let count1 := wadd ((count1 &&& M2)) ((count1 >>> 2) &&& M2)
  let count1 := wadd count1 (wadd (count2 &&& M2) ((count2 >>> 2) &&& M2))
  wadd (count1 &&& M4) ((count1 >>> 4) &&& M4)

/-- The per-block count of `distance_fast`: the accumulator `acc` over
the ten triples, folded down by the `M8` / 16-bit / 32-bit merges, and
truncated with `& 0xFFFF`. -/
def blockCount (mb xb yb : List Nat) : Nat :=
  let acc := (List.range 10).foldl (fun acc j => wadd acc (tripleAcc mb xb yb j)) 0
  let acc := wadd (acc &&& M8) ((acc >>> 8) &&& M8)
  let acc := wadd acc (acc >>> 16)
  let acc := wadd acc (acc >>> 32)
  acc &&& 0xFFFF

/-- The head length produced by `util::align_to::<u8, T30>` for a slice
whose pointer is `a` bytes past an 8-byte boundary: the distance to the
next 8-byte boundary, or the whole slice when no 240-byte block fits
after re-alignment (`align_of::<[u64; 30]> = 8`, `size_of = 240`). -/
def headLen (a len : Nat) : Nat :=
  let bd := (8 - a % 8) % 8
  if len < 240 + bd then len else bd

/-- The count computed by `distance_fast` when the three heads agree:
`naive` on the head, the tree-merge popcount on each aligned 240-byte
block, `naive` on the tail. -/
def fastCount (h : Nat) (mask x y : List Nat) : Nat :=
  let len := mask.length
  let nblocks := (len - h) / 240
  naive (mask.take h) (x.take h) (y.take h) +
    (List.range nblocks).foldl
      (fun cnt b =>
        cnt + blockCount ((mask.drop (h + 240 * b)).take 240)
          ((x.drop (h + 240 * b)).take 240)
          ((y.drop (h + 240 * b)).take 240)) 0 +
    naive (mask.drop (h + 240 * nblocks)) (x.drop (h + 240 * nblocks))
      (y.drop (h + 240 * nblocks))

/-- Model of `distance_fast(mask, x, y)` for slices of equal length
whose pointers sit `a0`, `a1`, `a2` bytes past an 8-byte boundary;
`Except` models the `Err(DistanceError)` returned when the three
`align_to` splits disagree. -/
def distance_fast (a0 a1 a2 : Nat) (mask x y : List Nat) : Except Unit Nat :=
  let h0 := headLen a0 mask.length
  let h1 := headLen a1 x.length
  let h2 := headLen a2 y.length
  if h1 = h2 ∧ h0 = h1 then .ok (fastCount h0 mask x y) else .error ()

/-- Model of `distance(mask, x, y)`: the fast path when the alignments
agree, otherwise the `naive` fallback, translating
`distance_fast(mask, x, y).ok().unwrap_or_else(|| naive(mask, x, y))`. -/
def distance (a0 a1 a2 : Nat) (mask x y : List Nat) : Nat :=
  match distance_fast a0 a1 a2 mask x y with
  | .ok n => n
  | .error _ => naive mask x y

/-- The concrete mask used to exhibit the fast-path defect: 240 bytes,
all zero except bytes 16..24 (the third `u64` word) which are `0xFF`. -/
def bugMask : List Nat :=
  List.replicate 16 0 ++ List.replicate 8 0xFF ++ List.replicate 216 0

/-- The concrete first operand of the defect witness: same layout as
`bugMask`. -/
def bugX : List Nat :=
  List.replicate 16 0 ++ List.replicate 8 0xFF ++ List.replicate 216 0

/-- The concrete second operand of the defect witness: 240 zero bytes. -/
def bugY : List Nat := List.replicate 240 0

/-! ## Bit accessors

`get_bit` / `put_bit` of `src/mhd_memory/src/util.rs` (these use the
mask `1u8 << (bit_index % 8)`), and `Sample::get_bit` / `Sample::set_bit`
of `src/src/mhd_method/sample.rs` (these use `128 >> mask_index`). -/

namespace Util

/-- Translation of `util::get_bit`:
`let bit_mask: u8 = 1u8 << mask_index; 0 != bytes[byte_index] & bit_mask`. -/
def get_bit (bytes : List Nat) (bit_index : Nat) : Bool :=
  let byte_index := bit_index / 8
  let mask_index := bit_index % 8
  let bit_mask := 1 <<< mask_index
  bytes.getD byte_index 0 &&& bit_mask != 0

/-- Translation of `util::put_bit`: clear the bit with `&= !bit_mask`,
then set it with `|= bit_mask` when the new value is true.  The `u8`
complement `!bit_mask` is `bit_mask ^ 0xFF`. -/
def put_bit (bytes : List Nat) (bit_index : Nat) (new_value : Bool) : List Nat :=
  let byte_index := bit_index / 8
  let mask_index := bit_index % 8
  let bit_mask := 1 <<< mask_index
  let not_bit_mask := bit_mask ^^^ 0xFF
  let cleared := bytes.getD byte_index 0 &&& not_bit_mask
  bytes.set byte_index (if new_value then cleared ||| bit_mask else cleared)

end Util

namespace MhdSample

/-- Translation of `Sample::get_bit` of `src/src/mhd_method/sample.rs`
(acting on the sample's `bytes` vector):
`let bit_mask = 128 >> mask_index; 0 != (byte & bit_mask)`. -/
def get_bit (bytes : List Nat) (bit_index : Nat) : Bool :=
  let byte_index := bit_index / 8
  let byte := bytes.getD byte_index 0
  let mask_index := bit_index % 8
  let bit_mask := 128 >>> mask_index
  byte &&& bit_mask != 0

/-- Translation of `Sample::set_bit` of `src/src/mhd_method/sample.rs`:
or the MSB-first mask in, or clear it with the complement. -/
def set_bit (bytes : List Nat) (bit_index : Nat) (bit_value : Bool) : List Nat :=
  let byte_index := bit_index / 8
  let mask_index := bit_index % 8
  let bit_mask := 128 >>> mask_index
  bytes.set byte_index
    (if bit_value then bytes.getD byte_index 0 ||| bit_mask
     else bytes.getD byte_index 0 &&& (bit_mask ^^^ 0xFF))

end MhdSample

/-! ## The MHD memory (`src/mhd_memory/src/mhdmemory.rs`) -/

/-- Modelled from the spec: the `sample` module of the `mhd_memory`
crate is not under `src/` (only the historical copy in
`src/src/mhd_method/sample.rs` is).  Per spec section 3, a sample is a
triple (width, bytes, score); equality and deduplication are by bytes
only. -/
structure Sample where
  width : Nat
  bytes : List Nat
  score : Nat
deriving DecidableEq

/-- Modelled from the spec: bit get of the `mhd_memory` crate's
`Sample`, which spec sections 3 and 4.2 define as MSB-first indexing
(`0x80 >> (i mod 8)` within octet `i / 8`). -/
def Sample.get_bit (s : Sample) (i : Nat) : Bool :=
  MhdSample.get_bit s.bytes i

/-- Sample `size()`: the advertised width. -/
def Sample.size (s : Sample) : Nat := s.width

/-- Modelled from the spec: `weight(x)` of the missing `weight_` module
returns the count of 1-bits in `x` (confirmed by the crate's doc test
`weight(&[1, 0xFF, 1, 0xFF]) == 1 + 8 + 1 + 8`). -/
def specWeight (bytes : List Nat) : Nat := (bytes.map popcount).sum

/-- Modelled from the spec: the `distance_` module re-exported by the
`mhd_memory` crate is not under `src/`; spec section 4.1 defines
`distance(mask, a, b) = popcount(mask AND (a XOR b))`, which is the
byte-wise fold also used by `naive` in the historical copy. -/
def specDistance (mask a b : List Nat) : Nat := naive mask a b

/-- The memory record of `src/mhd_memory/src/mhdmemory.rs`. -/
structure MhdMemory where
  width : Nat
  total_score : Nat
  max_score : Nat
  min_score : Nat
  samples : List Sample
deriving DecidableEq

namespace MhdMemory

/-- Number of stored samples. -/
def num_samples (m : MhdMemory) : Nat := m.samples.length

/-- Emptiness test. -/
def is_empty (m : MhdMemory) : Bool := m.samples.isEmpty

/-- Translation of `avg_score`: the zero score when empty, otherwise
`total_score / num_samples` (`u32` division truncates). -/
def avg_score (m : MhdMemory) : Nat :=
  if m.is_empty then 0 else m.total_score / m.num_samples

/-- Translation of `search`: the parallel `find_any` over byte-equality
is modelled as `List.find?` (the claims below use only that the result
is a stored sample with the queried bytes). -/
def search (m : MhdMemory) (query : Sample) : Option Sample :=
  m.samples.find? (fun t => decide (t.bytes = query.bytes))

/-- The two panics `write_sample` can run into: the width
`assert_eq!(self.width, new_sample.size())` and the duplicate-score
`assert_eq!(elder_sample.score, new_sample.score)`. -/
inductive WriteError where
  | widthMismatch
  | inconsistentScore
deriving DecidableEq

/-- Translation of `write_sample`.  The `Except` error is raised at the
program point of the corresponding `assert_eq!`, before any field of
the memory has been modified; the `Bool` result is the function's
"newly added" flag. -/
def write_sample (m : MhdMemory) (s : Sample) : Except WriteError (Bool × MhdMemory) :=
  if m.width ≠ s.size then .error .widthMismatch
  else if m.is_empty then
    .ok (true, { m with
      total_score := m.total_score + s.score,
      max_score := s.score,
      min_score := s.score,
      samples := m.samples ++ [s] })
  else
    match m.search s with
    | some elder =>
      if elder.score = s.score then .ok (false, m) else .error .inconsistentScore
    | none =>
      .ok (true, { m with
        max_score := if m.max_score < s.score then s.score else m.max_score,
        min_score := if s.score < m.min_score then s.score else m.min_score,
        total_score := m.total_score + s.score,
        samples := m.samples ++ [s] })

end MhdMemory

/-- The `result as ScoreType` cast at the end of `masked_read`: an
`f64` to `u32` cast in Rust saturates (negative values and NaN map to
0) and otherwise truncates toward zero; on the non-negative rationals
produced here that is exactly the natural floor, and the rational
`0 / 0 = 0` of the empty memory maps to 0 just as `NaN as u32` does. -/
def ratToScore (q : ℚ) : Nat := ⌊q⌋₊

namespace MhdMemory

/-- Translation of `masked_read`: fold every sample into the running
pair (score_sum, weight_sum) with `weight = 1 / (dist + 1)` and
`weighted_score = avg + (score - avg) * weight`, then divide and cast.
The `f64` sums are modelled as exact rationals. -/
def masked_read (m : MhdMemory) (mask query : List Nat) : Nat :=
  let sums := m.samples.foldl
    (fun (acc : ℚ × ℚ) s =>
      let dist := specDistance mask query s.bytes
      let dist_plus_1 : ℚ := (dist : ℚ) + 1
      let weight : ℚ := 1 / dist_plus_1
      let floating_avg : ℚ := (m.avg_score : ℚ)
      let delta_score : ℚ := (s.score : ℚ) - floating_avg
      let weighted_delta := delta_score * weight
      let weighted_score := floating_avg + weighted_delta
      (acc.1 + weighted_score, acc.2 + weight))
    (0, 0)
  ratToScore (sums.1 / sums.2)

/-- Translation of `calculate_priority`.  The source selects arm 3 of
the `match` on the compile-time constant `UCB_METHOD: u8 = 3` (the
hit-imbalance bonus); arms 0-2 are dead code (arm 0 contains the
transcendental `sqrt`/`ln` UCB term).  The unused `other_weight`
argument of the live arm is kept for fidelity. -/
def calculate_priority (m : MhdMemory) (hits_count total_hits : Nat)
    (score weight other_weight : ℚ) : ℚ :=
  let max_score : ℚ := (m.max_score : ℚ)
  if hits_count = 0 then max_score * 1024
  else
    let exploitation := (score / weight) / max_score
    let other_hits := total_hits - hits_count
    let exploration : ℚ :=
      if other_hits ≤ hits_count then 0
      else ((other_hits - hits_count : Nat) : ℚ) / (other_hits : ℚ)
    let _ := other_weight
    exploitation + exploration

/-- The running 6-tuple of `read_2_priorities`:
(score_false, score_true, weight_false, weight_true, hits_false,
hits_true). -/
structure PrioAcc where
  score_false : ℚ
  score_true : ℚ
  weight_false : ℚ
  weight_true : ℚ
  hits_false : Nat
  hits_true : Nat
deriving DecidableEq

/-- The zero 6-tuple, the identity element of the rayon reduce. -/
def PrioAcc.zero : PrioAcc := ⟨0, 0, 0, 0, 0, 0⟩

/-- Translation of the per-sample closure of `read_2_priorities`:
beyond the threshold contribute nothing; otherwise weight the score
onto the side selected by `s.get_bit(index)` and count an exact hit
when the distance is zero. -/
def prioStep (distMul : Nat → Nat → ℚ) (threshold : Nat) (mask query : List Nat)
    (index : Nat) (acc : PrioAcc) (s : Sample) : PrioAcc :=
  let dist := specDistance mask query s.bytes
  if threshold < dist then acc
  else
    let w := distMul threshold dist
    if s.get_bit index then
      { acc with
        score_true := acc.score_true + w * (s.score : ℚ),
        weight_true := acc.weight_true + w,
        hits_true := acc.hits_true + (if dist = 0 then 1 else 0) }
    else
      { acc with
        score_false := acc.score_false + w * (s.score : ℚ),
        weight_false := acc.weight_false + w,
        hits_false := acc.hits_false + (if dist = 0 then 1 else 0) }

/-- Translation of `read_2_priorities`, parameterised over the
distance multiplier: `distance_multiplier` with its compiled method 2
computes `(1 - d/T)^(1/(d+1))` through `f64::powf`, an irrational
value, so the multiplier enters the model as an opaque parameter and
the theorem about this function holds for every multiplier.  The
threshold is `weight(mask) / 2` and the sums are the rayon reduce of
the per-sample 6-tuples, modelled as a left fold. -/
def read_2_priorities (distMul : Nat → Nat → ℚ) (m : MhdMemory)
    (mask query : List Nat) (index : Nat) : ℚ × ℚ :=
  let threshold := specWeight mask / 2
  let t := m.samples.foldl (prioStep distMul threshold mask query index) PrioAcc.zero
  let total_hits := t.hits_false + t.hits_true
  (m.calculate_priority t.hits_false total_hits t.score_false t.weight_false t.weight_true,
   m.calculate_priority t.hits_true total_hits t.score_true t.weight_true t.weight_false)

end MhdMemory

/-! ### Claim-side definitions for the memory reads

These definitions follow the words of the spec sentences behind claims
C3 and C4; they are compared against the translations above. -/

/-- The per-sample weight `w_s = 1 / (distance(mask, query, s.bytes) + 1)`
of the spec's `masked_read` formula. -/
def specMRWeight (mask query : List Nat) (s : Sample) : ℚ :=
  1 / ((specDistance mask query s.bytes : ℚ) + 1)

/-- The spec sentence for claim C3, verbatim:
`result = (Σ_s w_s · (avg + (s.score − avg))) / Σ_s w_s`, cast to the
score type. -/
def claimMaskedRead (m : MhdMemory) (mask query : List Nat) : Nat :=
  let avg : ℚ := (m.avg_score : ℚ)
  ratToScore
    (((m.samples.map (fun s =>
        specMRWeight mask query s * (avg + ((s.score : ℚ) - avg)))).sum) /
      ((m.samples.map (fun s => specMRWeight mask query s)).sum))

/-- The sublist of samples within the proximity threshold whose bit at
`index` lies on side `b` (the population behind claim C4's `W_side` and
`S_side`). -/
def sideSamples (threshold : Nat) (mask query : List Nat) (index : Nat) (b : Bool)
    (l : List Sample) : List Sample :=
  l.filter (fun s =>
    decide (specDistance mask query s.bytes ≤ threshold) && (s.get_bit index == b))

/-- Exact-hit count on side `b` of a sample list: samples at masked
distance 0 whose bit at `index` lies on side `b`. -/
def listHits (mask query : List Nat) (index : Nat) (b : Bool) (l : List Sample) : Nat :=
  (l.filter (fun s =>
    decide (specDistance mask query s.bytes = 0) && (s.get_bit index == b))).length

/-- Multiplier-weight sum over the side-`b` samples of a list. -/
def listWeight (distMul : Nat → Nat → ℚ) (threshold : Nat) (mask query : List Nat)
    (index : Nat) (b : Bool) (l : List Sample) : ℚ :=
  ((sideSamples threshold mask query index b l).map
    (fun s => distMul threshold (specDistance mask query s.bytes))).sum

/-- Multiplier-weighted score sum over the side-`b` samples of a list. -/
def listScore (distMul : Nat → Nat → ℚ) (threshold : Nat) (mask query : List Nat)
    (index : Nat) (b : Bool) (l : List Sample) : ℚ :=
  ((sideSamples threshold mask query index b l).map
    (fun s => distMul threshold (specDistance mask query s.bytes) * (s.score : ℚ))).sum

/-- Claim C4's exact-hit count for one side of the memory. -/
def hitsOnSide (m : MhdMemory) (mask query : List Nat) (index : Nat) (b : Bool) : Nat :=
  listHits mask query index b m.samples

/-- Claim C4's weight sum `W_side` (threshold `weight(mask) / 2`). -/
def weightOnSide (distMul : Nat → Nat → ℚ) (m : MhdMemory)
    (mask query : List Nat) (index : Nat) (b : Bool) : ℚ :=
  listWeight distMul (specWeight mask / 2) mask query index b m.samples

/-- Claim C4's weighted score sum `S_side`. -/
def scoreOnSide (distMul : Nat → Nat → ℚ) (m : MhdMemory)
    (mask query : List Nat) (index : Nat) (b : Bool) : ℚ :=
  listScore distMul (specWeight mask / 2) mask query index b m.samples

/-- The priority that claim C4 asserts for side `b`: `max_score * 1024`
when the side has no exact hit, otherwise `(S_side / W_side) /
max_score` plus the hit-imbalance bonus
`(other_hits - hits) / other_hits` when the side's hits are the
minority, else 0. -/
def claimPriority (distMul : Nat → Nat → ℚ) (m : MhdMemory)
    (mask query : List Nat) (index : Nat) (b : Bool) : ℚ :=
  let hits := hitsOnSide m mask query index b
  let other := hitsOnSide m mask query index (!b)
  if hits = 0 then (m.max_score : ℚ) * 1024
  else
    (scoreOnSide distMul m mask query index b / weightOnSide distMul m mask query index b) /
        (m.max_score : ℚ) +
      (if other ≤ hits then 0 else ((other - hits : Nat) : ℚ) / (other : ℚ))

/-- A concrete two-sample memory (width 8, scores 0 and 30, average 15)
used to separate `masked_read` from the spec's formula. -/
def c3Mem : MhdMemory :=
  { width := 8, total_score := 30, max_score := 30, min_score := 0,
    samples := [⟨8, [0x00], 0⟩, ⟨8, [0x01], 30⟩] }

/-! ## `MinimalSolution` (`src/mhd_optimization/src/optimizer/solution.rs`) -/

/-- The `MinimalSolution` record.  The `f32` priority field is embedded
as a rational; none of the claims below consults it. -/
structure MinimalSolution where
  size : Nat
  mask : List Nat
  decisions : List Nat
  score : Nat
  best_score : Nat
  priority : ℚ
deriving DecidableEq

namespace MinimalSolution

/-- Translation of `MinimalSolution::new`:
`(size as f32 / 8.0).ceil() as usize` bytes of zeros for both buffers
(exactly `⌈size / 8⌉ = (size + 7) / 8` for every realistic size). -/
def new (size : Nat) : MinimalSolution :=
  let num_bytes := (size + 7) / 8
  { size := size
    mask := List.replicate num_bytes 0
    decisions := List.replicate num_bytes 0
    score := 0
    best_score := 0
    priority := 0 }

/-- Translation of `MinimalSolution::randomize`, with the random draws
as parameters: the mask becomes all `0xFF` bytes, the decisions buffer
is filled from the byte stream `r`, and the two random scores are `rs`
and `rb` (the concrete Rust distribution does not matter to any claim;
both fields are overwritten before use). -/
def randomize (s : MinimalSolution) (r : List Nat) (rs rb : Nat) : MinimalSolution :=
  { s with
    mask := List.replicate s.mask.length 0xFF
    decisions := (List.range s.decisions.length).map (fun i => r.getD i 0 % 256)
    score := rs
    best_score := rb }

/-- Translation of `Solution::random` (the trait default):
`new` then `randomize`. -/
def random (size : Nat) (r : List Nat) (rs rb : Nat) : MinimalSolution :=
  (new size).randomize r rs rb

/-- Translation of `get_decision`: `None` while the mask bit is clear,
otherwise the decisions bit, both through `util::get_bit`. -/
def get_decision (s : MinimalSolution) (i : Nat) : Option Bool :=
  if ¬ Util.get_bit s.mask i then none
  else some (Util.get_bit s.decisions i)

/-- Translation of `make_decision`: set the mask bit, store the value
bit, both through `util::put_bit`. -/
def make_decision (s : MinimalSolution) (i : Nat) (d : Bool) : MinimalSolution :=
  { s with
    mask := Util.put_bit s.mask i true
    decisions := Util.put_bit s.decisions i d }

end MinimalSolution

/-! ## `ProblemSubsetSum`
(`src/mhd_optimization/src/implementations/subset_sum_problem.rs`)

All scores and weights of this problem are `ScoreType = u32` values.
Definitions carrying a source name below use the wrapping `u32`
arithmetic of release Rust (`wadd32` / `wsub32`); each has an
ideal-arithmetic variant with suffix `I` (unbounded `Nat`, Nat
subtraction) used as proof scaffolding and as the spec-level weight of
a selection, and agreement lemmas below equate the two whenever the
weight sum and the capacity fit in `u32`. -/

/-- Wrapping `u32` addition: `ScoreType` is `u32` and release Rust
wraps on overflow. -/
def wadd32 (a b : Nat) : Nat := (a + b) % 4294967296

/-- Wrapping `u32` subtraction (two's-complement wraparound on
underflow). -/
def wsub32 (a b : Nat) : Nat := (a + (4294967296 - b % 4294967296)) % 4294967296

/-- The subset-sum problem record: item weights and the knapsack
capacity. -/
structure ProblemSubsetSum where
  weights : List Nat
  capacity : Nat
deriving DecidableEq

namespace ProblemSubsetSum

/-- Problem dimension: the length of the weights vector. -/
def problem_size (p : ProblemSubsetSum) : Nat := p.weights.length

/-- Weight of item `i` (in-range in every use below). -/
def w (p : ProblemSubsetSum) (i : Nat) : Nat := p.weights.getD i 0

/-- Translation of `is_legal`:
`(0 < self.problem_size()) && (0 < self.capacity)`. -/
def is_legal (p : ProblemSubsetSum) : Bool :=
  decide (0 < p.problem_size) && decide (0 < p.capacity)

/-- Ideal-arithmetic variant of `solution_score` (no `u32` wrapping):
the unbounded sum of the weights of the decided-true items.  This is
the spec-level weight of a selection, and the proof-side form of the
score; `solution_score_agree` equates it with the wrapped translation
whenever the weight sum fits in `u32`. -/
def solution_scoreI (p : ProblemSubsetSum) (s : MinimalSolution) : Nat :=
  ((List.range p.problem_size).map (fun i =>
    match s.get_decision i with
    | some true => p.w i
    | _ => 0)).sum

/-- Ideal-arithmetic variant of the `solution_best_score` loop with its
early `return capacity`: add the weight of every open or decided-true
item in index order, without wrapping, and stop with `capacity` as soon
as the running sum exceeds it. -/
def bestScoreAuxI (p : ProblemSubsetSum) (s : MinimalSolution) :
    List Nat → Nat → Nat
  | [], acc => acc
  | i :: rest, acc =>
    let acc2 :=
      match s.get_decision i with
      | some false => acc
      | _ => acc + p.w i
    if p.capacity < acc2 then p.capacity else bestScoreAuxI p s rest acc2

/-- Ideal-arithmetic variant of `solution_best_score`. -/
def solution_best_scoreI (p : ProblemSubsetSum) (s : MinimalSolution) : Nat :=
  bestScoreAuxI p s (List.range p.problem_size) 0

/-- Ideal-arithmetic variant of `solution_is_legal`: the unbounded
score fits the capacity. -/
def solution_is_legalI (p : ProblemSubsetSum) (s : MinimalSolution) : Bool :=
  decide (p.solution_scoreI s ≤ p.capacity)

/-- Translation of `first_open_decision`: the first index below
`problem_size` whose decision is open. -/
def first_open_decision (p : ProblemSubsetSum) (s : MinimalSolution) : Option Nat :=
  (List.range p.problem_size).find? (fun i => (s.get_decision i).isNone)

/-- Translation of `solution_is_complete`:
`None == self.first_open_decision(solution)`. -/
def solution_is_complete (p : ProblemSubsetSum) (s : MinimalSolution) : Bool :=
  (p.first_open_decision s).isNone

/-- Ideal-arithmetic variant of the second pass of `apply_rules`:
close every open item that no longer fits the headroom (computed once,
before the loop) and accumulate, without wrapping, the optimistic
weight of the rest. -/
def applyRulesAuxI (p : ProblemSubsetSum) (headroom : Nat) :
    List Nat → MinimalSolution × Nat → MinimalSolution × Nat
  | [], st => st
  | bit :: rest, (sol, weight) =>
    if (sol.get_decision bit).isNone then
      if headroom < p.w bit then
        applyRulesAuxI p headroom rest (sol.make_decision bit false, weight)
      else
        applyRulesAuxI p headroom rest (sol, weight + p.w bit)
    else
      applyRulesAuxI p headroom rest (sol, weight)

/-- Ideal-arithmetic variant of `apply_rules` (unbounded additions,
truncated Nat subtraction for the headroom): store the score, close the
items that cannot fit, cap the optimistic weight at the capacity and
store it as the best score. -/
def apply_rulesI (p : ProblemSubsetSum) (sol : MinimalSolution) : MinimalSolution :=
  let weight := p.solution_scoreI sol
  let sol1 := { sol with score := weight }
  let headroom := p.capacity - weight
  let st := applyRulesAuxI p headroom (List.range p.problem_size) (sol1, weight)
  let weight2 := if p.capacity < st.2 then p.capacity else st.2
  { st.1 with best_score := weight2 }

/-- Ideal-arithmetic variant of the audit loop of
`rules_audit_passed`: `none` models the `return false` taken when an
open item still exceeds the headroom; otherwise the optimistic weight
is accumulated without wrapping. -/
def auditAuxI (p : ProblemSubsetSum) (s : MinimalSolution) (headroom : Nat) :
    List Nat → Nat → Option Nat
  | [], acc => some acc
  | bit :: rest, acc =>
    if (s.get_decision bit).isNone then
      if headroom < p.w bit then none
      else auditAuxI p s headroom rest (acc + p.w bit)
    else
      auditAuxI p s headroom rest acc

/-- Ideal-arithmetic variant of `rules_audit_passed` (the `assert!` /
`assert_eq!` checks as conjuncts, unbounded arithmetic). -/
def rules_audit_passedI (p : ProblemSubsetSum) (s : MinimalSolution) : Bool :=
  p.solution_is_legalI s &&
    decide (s.score = p.solution_scoreI s) &&
    decide (s.best_score = p.solution_best_scoreI s) &&
    (let weight := p.solution_scoreI s
     let headroom := p.capacity - weight
     match auditAuxI p s headroom (List.range p.problem_size) weight with
     | none => false
     | some wfin => decide ((if p.capacity < wfin then p.capacity else wfin) = s.best_score))

/-- Ideal-arithmetic variant of the repair loop of `random_solution`:
walk the items in index order, take each selected item out of the
knapsack (truncated Nat subtraction), and stop as soon as the tracked
weight drops below the capacity. -/
def randLegalAuxI (p : ProblemSubsetSum) :
    List Nat → MinimalSolution × Nat → MinimalSolution × Nat
  | [], st => st
  | i :: rest, (sol, weight) =>
    match sol.get_decision i with
    | some true =>
      let sol2 := sol.make_decision i false
      let weight2 := weight - p.w i
      if weight2 < p.capacity then (sol2, weight2)
      else randLegalAuxI p rest (sol2, weight2)
    | _ => randLegalAuxI p rest (sol, weight)

/-- Ideal-arithmetic variant of `random_solution`: randomize
completely, repair the selection if the unbounded score exceeds the
capacity, then apply the rules. -/
def random_solutionI (p : ProblemSubsetSum) (r : List Nat) (rs rb : Nat) : MinimalSolution :=
  let result := MinimalSolution.random p.problem_size r rs rb
  let result2 :=
    if ¬ p.solution_is_legalI result then
      (randLegalAuxI p (List.range p.problem_size) (result, p.solution_scoreI result)).1
    else result
  p.apply_rulesI result2

/-- Ideal-arithmetic variant of the `fix_scores` trait default: store
the unbounded score and best score on the solution. -/
def fix_scoresI (p : ProblemSubsetSum) (s : MinimalSolution) : MinimalSolution :=
  { s with score := p.solution_scoreI s, best_score := p.solution_best_scoreI s }

/-- Ideal-arithmetic variant of `starting_solution`: the all-open
solution, scores fixed, rules applied, all without wrapping. -/
def starting_solutionI (p : ProblemSubsetSum) : MinimalSolution :=
  p.apply_rulesI (p.fix_scoresI (MinimalSolution.new p.problem_size))

/-- Modelled from the spec (section 4.5; the current crate's
`problem.rs` is not under `src/`): the default `better_than(a, b)` is
`b.best_score ≤ a.best_score`. -/
def better_than (p : ProblemSubsetSum) (new_sol old_sol : MinimalSolution) : Bool :=
  let _ := p
  decide (old_sol.best_score ≤ new_sol.best_score)

/-- Modelled from the spec (section 4.5): the pruning predicate
`can_be_better_than(a, b)` is `b.best_score ≤ a.best_score`. -/
def can_be_better_than (p : ProblemSubsetSum) (new_sol old_sol : MinimalSolution) : Bool :=
  let _ := p
  decide (old_sol.best_score ≤ new_sol.best_score)

/-- Ideal-arithmetic variant of `children_of_solution`: both children
run through the ideal `apply_rulesI`. -/
def children_of_solutionI (p : ProblemSubsetSum) (s : MinimalSolution) :
    List MinimalSolution :=
  match p.first_open_decision s with
  | none => []
  | some i =>
    [p.apply_rulesI (s.make_decision i true), p.apply_rulesI (s.make_decision i false)]

/-- Translation of `solution_score`: the loop
`result += self.weights[index]` over the decided-true items, with the
wrapping `u32` addition of `ScoreType` arithmetic. -/
def solution_score (p : ProblemSubsetSum) (s : MinimalSolution) : Nat :=
  (List.range p.problem_size).foldl (fun result index =>
    match s.get_decision index with
    | some true => wadd32 result (p.w index)
    | _ => result) 0

/-- The loop of `solution_best_score` with its early `return capacity`:
add (wrapping in `u32`) the weight of every open or decided-true item
in index order and stop with `capacity` as soon as the running sum
exceeds it. -/
def bestScoreAux (p : ProblemSubsetSum) (s : MinimalSolution) :
    List Nat → Nat → Nat
  | [], acc => acc
  | i :: rest, acc =>
    let acc2 :=
      match s.get_decision i with
      | some false => acc
      | _ => wadd32 acc (p.w i)
    if p.capacity < acc2 then p.capacity else bestScoreAux p s rest acc2

/-- Translation of `solution_best_score`. -/
def solution_best_score (p : ProblemSubsetSum) (s : MinimalSolution) : Nat :=
  bestScoreAux p s (List.range p.problem_size) 0

/-- Translation of `solution_is_legal`: the solution's (`u32`) score
fits the capacity. -/
def solution_is_legal (p : ProblemSubsetSum) (s : MinimalSolution) : Bool :=
  decide (p.solution_score s ≤ p.capacity)

/-- The second pass of `apply_rules`: close every open item that no
longer fits the headroom (computed once, before the loop) and
accumulate, wrapping in `u32`, the optimistic weight of the rest. -/
def applyRulesAux (p : ProblemSubsetSum) (headroom : Nat) :
    List Nat → MinimalSolution × Nat → MinimalSolution × Nat
  | [], st => st
  | bit :: rest, (sol, weight) =>
    if (sol.get_decision bit).isNone then
      if headroom < p.w bit then
        applyRulesAux p headroom rest (sol.make_decision bit false, weight)
      else
        applyRulesAux p headroom rest (sol, wadd32 weight (p.w bit))
    else
      applyRulesAux p headroom rest (sol, weight)

/-- Translation of `apply_rules`: store the score, close the items that
cannot fit, cap the optimistic weight at the capacity and store it as
the best score.  All score arithmetic is `u32`:
`let headroom = self.capacity - weight` is the wrapping subtraction and
`weight += self.weights[bit]` the wrapping addition. -/
def apply_rules (p : ProblemSubsetSum) (sol : MinimalSolution) : MinimalSolution :=
  let weight := p.solution_score sol
  let sol1 := { sol with score := weight }
  let headroom := wsub32 p.capacity weight
  let st := applyRulesAux p headroom (List.range p.problem_size) (sol1, weight)
  let weight2 := if p.capacity < st.2 then p.capacity else st.2
  { st.1 with best_score := weight2 }

/-- The audit loop of `rules_audit_passed`: `none` models the
`return false` taken when an open item still exceeds the headroom;
otherwise the optimistic weight is accumulated (wrapping) as in
`apply_rules`. -/
def auditAux (p : ProblemSubsetSum) (s : MinimalSolution) (headroom : Nat) :
    List Nat → Nat → Option Nat
  | [], acc => some acc
  | bit :: rest, acc =>
    if (s.get_decision bit).isNone then
      if headroom < p.w bit then none
      else auditAux p s headroom rest (wadd32 acc (p.w bit))
    else
      auditAux p s headroom rest acc

/-- Translation of `rules_audit_passed`; the function's `assert!` /
`assert_eq!` checks are modelled as conjuncts (each failing assert is a
panic, i.e. the audit does not pass), and all score arithmetic is
`u32`. -/
def rules_audit_passed (p : ProblemSubsetSum) (s : MinimalSolution) : Bool :=
  p.solution_is_legal s &&
    decide (s.score = p.solution_score s) &&
    decide (s.best_score = p.solution_best_score s) &&
    (let weight := p.solution_score s
     let headroom := wsub32 p.capacity weight
     match auditAux p s headroom (List.range p.problem_size) weight with
     | none => false
     | some wfin => decide ((if p.capacity < wfin then p.capacity else wfin) = s.best_score))

/-- The repair loop of `random_solution`: walk the items in index
order, take each selected item out of the knapsack
(`weight -= self.weights[index]`, the wrapping `u32` subtraction), and
stop as soon as the tracked weight drops below the capacity. -/
def randLegalAux (p : ProblemSubsetSum) :
    List Nat → MinimalSolution × Nat → MinimalSolution × Nat
  | [], st => st
  | i :: rest, (sol, weight) =>
    match sol.get_decision i with
    | some true =>
      let sol2 := sol.make_decision i false
      let weight2 := wsub32 weight (p.w i)
      if weight2 < p.capacity then (sol2, weight2)
      else randLegalAux p rest (sol2, weight2)
    | _ => randLegalAux p rest (sol, weight)

/-- Translation of `random_solution`, with the random draws of
`MinimalSolution::random` as parameters: randomize completely, repair
the selection if its (`u32`) score exceeds the capacity, then
`apply_rules`. -/
def random_solution (p : ProblemSubsetSum) (r : List Nat) (rs rb : Nat) : MinimalSolution :=
  let result := MinimalSolution.random p.problem_size r rs rb
  let result2 :=
    if ¬ p.solution_is_legal result then
      (randLegalAux p (List.range p.problem_size) (result, p.solution_score result)).1
    else result
  p.apply_rules result2

/-- The `fix_scores` default of the `Problem` trait (the current
crate's `problem.rs` is not under `src/`; the historical trait in
`src/src/mhd_optimizer/problem.rs` stores the score and the best score
on the solution, and both fields are overwritten by the `apply_rules`
call that follows every use below). -/
def fix_scores (p : ProblemSubsetSum) (s : MinimalSolution) : MinimalSolution :=
  { s with score := p.solution_score s, best_score := p.solution_best_score s }

/-- Translation of `starting_solution`: the all-open solution, scores
fixed, rules applied. -/
def starting_solution (p : ProblemSubsetSum) : MinimalSolution :=
  p.apply_rules (p.fix_scores (MinimalSolution.new p.problem_size))

/-- Modelled from the spec (sections 4.5 and 5; the current crate's
`problem.rs` is not under `src/`): `children_of_solution` clones the
parent twice, makes the first open decision true in one copy and false
in the other (true child first), applies the rules to both, and
returns both. -/
def children_of_solution (p : ProblemSubsetSum) (s : MinimalSolution) :
    List MinimalSolution :=
  match p.first_open_decision s with
  | none => []
  | some i =>
    [p.apply_rules (s.make_decision i true), p.apply_rules (s.make_decision i false)]

end ProblemSubsetSum

/-! ## The driver loop (`Solver::find_best_solution`,
`src/mhd_optimization/src/optimizer/solver.rs`)

The solver's container is modelled as the list of pushed partial
solutions; `pop` removes the element selected by an oracle stream
(`chooser`), which covers every container policy (stack, heap, ...)
whose `pop` returns a previously pushed solution.  The two wall-clock
deadline tests of the loop are a second oracle stream (`stopper`), and
the loop's unbounded `loop` is run on fuel: exhausted fuel returns the
best slot exactly as an expired deadline does.  `is_finished` is the
trait default (container empty). -/

/-- The driver's mutable state: the container contents and the
best-solution slot. -/
structure DriverState where
  container : List MinimalSolution
  best : MinimalSolution
deriving DecidableEq

/-- Oracle-driven `pop`: remove the element at the chooser-selected
index (modulo the container size). -/
def popAt (l : List MinimalSolution) (k : Nat) :
    Option (MinimalSolution × List MinimalSolution) :=
  match l with
  | [] => none
  | a :: rest =>
    let i := k % (a :: rest).length
    some ((a :: rest).getD i a, (a :: rest).eraseIdx i)

/-- The per-child step of the driver: push an incomplete child that can
still beat the best, feed a complete child to `new_best_solution`
(which stores it when `better_than` holds). -/
def processChild (p : ProblemSubsetSum) (st : DriverState)
    (child : MinimalSolution) : DriverState :=
  if ¬ p.solution_is_complete child then
    if p.can_be_better_than child st.best then
      { st with container := st.container ++ [child] }
    else st
  else
    if p.better_than child st.best then { st with best := child } else st

/-- Ideal-arithmetic variant of the driver-loop body (children through
`children_of_solutionI`). -/
def driverBodyI (p : ProblemSubsetSum) (best : MinimalSolution)
    (rest : List MinimalSolution) (next : MinimalSolution) : DriverState :=
  if p.solution_is_complete next then
    { container := rest
      best := if p.better_than next best then next else best }
  else if p.can_be_better_than next best then
    (p.children_of_solutionI next).foldl (processChild p) { container := rest, best := best }
  else
    { container := rest, best := best }

/-- Ideal-arithmetic variant of the driver loop on fuel. -/
def driverLoopI (p : ProblemSubsetSum) (chooser : Nat → Nat) (stopper : Nat → Bool) :
    Nat → Nat → DriverState → MinimalSolution
  | 0, _, st => st.best
  | fuel + 1, n, st =>
    match popAt st.container (chooser n) with
    | none => st.best
    | some (next, rest) =>
      let st1 := driverBodyI p st.best rest next
      if st1.container.isEmpty || stopper n then st1.best
      else driverLoopI p chooser stopper fuel (n + 1) st1

/-- One body of the driver loop applied to a popped solution: a
complete solution goes through `new_best_solution`; an incomplete one
that can still beat the best is branched into children. -/
def driverBody (p : ProblemSubsetSum) (best : MinimalSolution)
    (rest : List MinimalSolution) (next : MinimalSolution) : DriverState :=
  if p.solution_is_complete next then
    { container := rest
      best := if p.better_than next best then next else best }
  else if p.can_be_better_than next best then
    (p.children_of_solution next).foldl (processChild p) { container := rest, best := best }
  else
    { container := rest, best := best }

/-- The driver loop on fuel, with the pop chooser and deadline oracle
streams. -/
def driverLoop (p : ProblemSubsetSum) (chooser : Nat → Nat) (stopper : Nat → Bool) :
    Nat → Nat → DriverState → MinimalSolution
  | 0, _, st => st.best
  | fuel + 1, n, st =>
    match popAt st.container (chooser n) with
    | none => st.best
    | some (next, rest) =>
      let st1 := driverBody p st.best rest next
      if st1.container.isEmpty || stopper n then st1.best
      else driverLoop p chooser stopper fuel (n + 1) st1

/-- Translation of `find_best_solution`: store `random_solution` in the
best slot, push `starting_solution`, loop. -/
def find_best_solution (p : ProblemSubsetSum) (r : List Nat) (rs rb : Nat)
    (chooser : Nat → Nat) (stopper : Nat → Bool) (fuel : Nat) : MinimalSolution :=
  driverLoop p chooser stopper fuel 0
    { container := [p.starting_solution], best := p.random_solution r rs rb }

/-- Well-formedness of a solution for a problem: declared size equal to
the problem dimension and both byte buffers of the byte length
`MinimalSolution::new` allocates. -/
def solWF (p : ProblemSubsetSum) (s : MinimalSolution) : Bool :=
  decide (s.size = p.problem_size) &&
    decide (s.mask.length = (p.problem_size + 7) / 8) &&
    decide (s.decisions.length = (p.problem_size + 7) / 8)

/-- The driver invariant behind claim C8: every container element and
the best slot are well-formed and pass the rules audit, and the best
slot is complete. -/
def InvDriver (p : ProblemSubsetSum) (st : DriverState) : Bool :=
  st.container.all (fun s => solWF p s && p.rules_audit_passed s) &&
    solWF p st.best && p.rules_audit_passed st.best && p.solution_is_complete st.best

/-- Ideal-arithmetic variant of the driver invariant (audits through
`rules_audit_passedI`). -/
def InvDriverI (p : ProblemSubsetSum) (st : DriverState) : Bool :=
  st.container.all (fun s => solWF p s && p.rules_audit_passedI s) &&
    solWF p st.best && p.rules_audit_passedI st.best && p.solution_is_complete st.best

/-- Propositional form of the per-solution invariant: well-formed and
audit-passed. -/
def solOKI (p : ProblemSubsetSum) (s : MinimalSolution) : Prop :=
  solWF p s = true ∧ p.rules_audit_passedI s = true

/-- Propositional invariant of the best slot: well-formed, audited,
and complete. -/
def bestOKI (p : ProblemSubsetSum) (s : MinimalSolution) : Prop :=
  solOKI p s ∧ p.solution_is_complete s = true

/-- Problem instance exhibiting the `u32` overflow of the optimistic
accumulator in `apply_rules`: legal (positive size and capacity), all
weights `u32`-representable, but their sum 5905580032 exceeds
`2 ^ 32`. -/
def c7P : ProblemSubsetSum := ⟨[3221225472, 536870912, 2147483648], 3221225472⟩

/-- Problem instance whose all-true random draw wraps
`solution_score` to 3: the four weights `2 ^ 31` cancel modulo
`2 ^ 32`, so a selection of true weight 8589934595 passes the `u32`
legality check against capacity 5. -/
def c8P : ProblemSubsetSum :=
  ⟨[2147483648, 2147483648, 2147483648, 2147483648, 1, 1, 1], 5⟩

/-! ## `MhdMonteCarloSolver::is_finished`
(`src/mhd_optimization/src/implementations/mhd_mc_solver.rs`) -/

/-- Translation of `MhdMonteCarloSolver::is_finished` as a function of
the memory's width and sample count (the only state it reads):
`max_solutions` is `1 << width` for widths up to 28 and
`(1 << 30) / ((width + 7) / 8)` beyond, and the solver is finished when
`max_solutions < self.number_of_solutions()`. -/
def mc_is_finished (width num_samples : Nat) : Bool :=
  let max_solutions := if width ≤ 28 then 1 <<< width else (1 <<< 30) / ((width + 7) / 8)
  decide (max_solutions < num_samples)

/-- Concrete memory for the C5 and C6 witnesses: width 8, one stored
sample with bytes `[1]` and score 5. -/
def c56Mem : MhdMemory :=
  { width := 8, total_score := 5, max_score := 5, min_score := 5,
    samples := [⟨8, [1], 5⟩] }

end MHM

namespace MHM

/-- Sanity check of the fuel-based popcount on a few `u8`/`u64`
values. -/
theorem popcount_smoke :
    popcount 0xFF = 8 ∧ popcount 0 = 0 ∧ popcount 0x5555555555555555 = 32 :=
  ⟨by decide, by decide, by decide⟩

/-- Sanity check mirroring the repository's own `distance_smoke` data:
a uniform mask is handled identically by the fast path and the scalar
loop (uniform masks are the only masks the repository's tests feed to
the kernel, which is why the defect exhibited below went unnoticed). -/
theorem distance_uniform_mask_smoke :
    distance 0 0 0 (List.replicate 240 0xFF) (List.replicate 240 0x9D) (List.replicate 240 0) =
        1200 ∧
      naive (List.replicate 240 0xFF) (List.replicate 240 0x9D) (List.replicate 240 0) = 1200 :=
  ⟨by decide, by decide⟩

/-- C1: the claim reads "distance(mask, a, b) returns the number of
1-bits in (mask AND (a XOR b)) -- on every input, including those where
... the word-at-a-time fast path (distance_fast) is taken on the middle
run".  The code violates this: inside the fast path's triple loop the
third word is masked with `mask_array[j+1]` instead of
`mask_array[j+2]` (src/src/distance_.rs line 119), so on three
8-byte-aligned 240-byte buffers whose mask selects only bytes 16..24
(the third word), where `a` and `b` differ in exactly those 64 bits,
`distance` returns 0 through the fast path while the masked popcount --
and the function's own documented `naive` semantics -- give 64.  The
claim (and the doc comment, and the commented-out quickcheck test
comparing `distance_fast` against `naive`) state the intent; the code
is a slip, hence a code bug. -/
theorem c1_distance_fast_mask_misindexed :
    distance 0 0 0 bugMask bugX bugY = 0 ∧
      distance_fast 0 0 0 bugMask bugX bugY = .ok 0 ∧
      naive bugMask bugX bugY = 64 :=
  ⟨by decide, by rfl, by decide⟩

/-! ## Bit-accessor lemmas (claim C2) -/

/-- Characterization of `util::get_bit`: it reads bit `i % 8` of octet
`i / 8` counting from the least significant bit (mask `1 << (i % 8)`). -/
theorem util_get_bit_eq_testBit (bytes : List Nat) (i : Nat) :
    Util.get_bit bytes i = (bytes.getD (i / 8) 0).testBit (i % 8) := by
  simp only [Util.get_bit]
  rw [Nat.shiftLeft_eq, one_mul, Nat.and_two_pow]
  cases h : (bytes.getD (i / 8) 0).testBit (i % 8) <;> simp [h]

/-- Characterization of `Sample::get_bit` of `mhd_method`: it reads bit
`7 - i % 8` of octet `i / 8` counting from the least significant bit,
i.e. bit `i % 8` counting MSB-first (mask `0x80 >> (i % 8)`). -/
theorem mhd_get_bit_eq_testBit (bytes : List Nat) (i : Nat) :
    MhdSample.get_bit bytes i = (bytes.getD (i / 8) 0).testBit (7 - i % 8) := by
  simp only [MhdSample.get_bit]
  have h8 : (128 : Nat) = 2 ^ 7 := by norm_num
  have hlt : i % 8 ≤ 7 := by omega
  rw [h8, Nat.shiftRight_eq_div_pow, Nat.pow_div hlt (by norm_num), Nat.and_two_pow]
  cases h : (bytes.getD (i / 8) 0).testBit (7 - i % 8) <;> simp [h]

/-- The byte written by `util::put_bit` carries the new value at bit
`i % 8` and the old byte's value at every other low bit position. -/
theorem util_put_bit_getD (bytes : List Nat) (i : Nat) (v : Bool)
    (h : i / 8 < bytes.length) (k : Nat) (hk : k < 8) :
    ((Util.put_bit bytes i v).getD (i / 8) 0).testBit k =
      if k = i % 8 then v else (bytes.getD (i / 8) 0).testBit k := by
  simp only [Util.put_bit]
  have hset : ∀ a : Nat, (bytes.set (i / 8) a).getD (i / 8) 0 = a := by
    intro a
    rw [List.getD_eq_getElem _ 0 (by simpa using h)]
    simp [List.getElem_set_self]
  rw [hset]
  have hshift : (1 : Nat) <<< (i % 8) = 2 ^ (i % 8) := by
    rw [Nat.shiftLeft_eq, one_mul]
  have hnot : ∀ t : Nat, t < 8 →
      (((1 : Nat) <<< (i % 8)) ^^^ 255).testBit t = !(decide (i % 8 = t)) := by
    intro t ht
    have h255 : (255 : Nat) = 2 ^ 8 - 1 := by norm_num
    rw [hshift, h255, Nat.testBit_xor, Nat.testBit_two_pow, Nat.testBit_two_pow_sub_one]
    simp [ht]
  have hcl :
      (bytes.getD (i / 8) 0 &&& (((1 : Nat) <<< (i % 8)) ^^^ 255)).testBit k =
        ((bytes.getD (i / 8) 0).testBit k && !(decide (i % 8 = k))) := by
    rw [Nat.testBit_and, hnot k hk]
  rcases v with _ | _
  · simp only [Bool.false_eq_true, if_false, ite_false]
    rw [hcl]
    rcases eq_or_ne k (i % 8) with rfl | hk2
    · simp
    · simp [hk2, Ne.symm hk2]
  · simp only [if_true, ite_true]
    rw [Nat.testBit_or, hcl, hshift, Nat.testBit_two_pow]
    rcases eq_or_ne k (i % 8) with rfl | hk2
    · simp
    · simp [hk2, Ne.symm hk2]

/-- The function `util::put_bit` leaves every octet other than `i / 8`
unchanged. -/
theorem util_put_bit_getD_ne (bytes : List Nat) (i : Nat) (v : Bool) (j : Nat)
    (hj : j ≠ i / 8) :
    (Util.put_bit bytes i v).getD j 0 = bytes.getD j 0 := by
  unfold Util.put_bit
  simp [List.getD, List.getElem?_set_ne (Ne.symm hj)]

/-- The function `util::put_bit` preserves the buffer length. -/
theorem util_put_bit_length (bytes : List Nat) (i : Nat) (v : Bool) :
    (Util.put_bit bytes i v).length = bytes.length := by
  unfold Util.put_bit
  simp

/-- Reading back through `util::get_bit` after `util::put_bit`: the
written bit has the new value, every other bit is unchanged. -/
theorem util_get_bit_put_bit (bytes : List Nat) (i : Nat) (v : Bool) (j : Nat)
    (h : i / 8 < bytes.length) :
    Util.get_bit (Util.put_bit bytes i v) j = if j = i then v else Util.get_bit bytes j := by
  rw [util_get_bit_eq_testBit, util_get_bit_eq_testBit]
  rcases eq_or_ne (j / 8) (i / 8) with hoct | hoct
  · rw [hoct, util_put_bit_getD bytes i v h (j % 8) (Nat.mod_lt _ (by norm_num))]
    rcases eq_or_ne j i with rfl | hji
    · simp
    · have : j % 8 ≠ i % 8 := by omega
      simp [this, hji]
  · have hji : j ≠ i := by omega
    rw [util_put_bit_getD_ne bytes i v (j / 8) hoct]
    simp [hji]

/-- C2 counterexample: the claim asserts that `util::get_bit` (hence
the mask/decisions buffers of every solution) reads bit `i` as octet
`⌊i/8⌋` masked with `0x80 >> (i mod 8)`.  At the single-octet buffer
`[0x80]` and bit 0 that MSB-first formula flags the bit as set -- and
`mhd_method`'s `Sample::get_bit` indeed returns true -- but
`util::get_bit` returns false, because it uses the LSB-first mask
`1 << (i mod 8)`. -/
theorem c2_bit_convention_counterexample :
    Util.get_bit [0x80] 0 = false ∧
      (0x80 : Nat) &&& (0x80 >>> (0 % 8)) ≠ 0 ∧
      MhdSample.get_bit [0x80] 0 = true :=
  ⟨by decide, by decide, by decide⟩

/-- C2 amended: `Sample::get_bit`/`set_bit` of `mhd_method` address
octet `⌊i/8⌋` MSB-first (mask `0x80 >> (i mod 8)`, i.e. LSB position
`7 - i mod 8`), while `util::get_bit`/`put_bit` -- and with them the
mask and decisions buffers of `MinimalSolution` as read and written by
`get_decision`/`make_decision` -- address the same octet `⌊i/8⌋` but
LSB-first (mask `1 << (i mod 8)`).  Bit `i` of a sample therefore
denotes the same position as bit `8⌊i/8⌋ + (7 - i mod 8)` of a
solution buffer, the in-octet mirror image, not bit `i` itself; and
through its own accessors a solution's `make_decision i v` is read back
by `get_decision i` as `v` without disturbing other decisions. -/
theorem c2_bit_conventions_amended :
    (∀ (bytes : List Nat) (i : Nat),
        MhdSample.get_bit bytes i = (bytes.getD (i / 8) 0).testBit (7 - i % 8) ∧
        Util.get_bit bytes i = (bytes.getD (i / 8) 0).testBit (i % 8) ∧
        MhdSample.get_bit bytes i = Util.get_bit bytes (8 * (i / 8) + (7 - i % 8))) ∧
    (∀ (s : MinimalSolution) (i : Nat) (v : Bool),
        i / 8 < s.mask.length → i / 8 < s.decisions.length →
        (s.make_decision i v).get_decision i = some v ∧
        ∀ j, j ≠ i → (s.make_decision i v).get_decision j = s.get_decision j) := by
  constructor
  · intro bytes i
    refine ⟨mhd_get_bit_eq_testBit bytes i, util_get_bit_eq_testBit bytes i, ?_⟩
    rw [mhd_get_bit_eq_testBit, util_get_bit_eq_testBit]
    have hd : (8 * (i / 8) + (7 - i % 8)) / 8 = i / 8 := by omega
    have hm : (8 * (i / 8) + (7 - i % 8)) % 8 = 7 - i % 8 := by omega
    rw [hd, hm]
  · intro s i v hm hd
    unfold MinimalSolution.make_decision MinimalSolution.get_decision
    constructor
    · simp only [util_get_bit_put_bit _ _ _ _ hm, util_get_bit_put_bit _ _ _ _ hd]
      simp
    · intro j hj
      simp only [util_get_bit_put_bit _ _ _ _ hm, util_get_bit_put_bit _ _ _ _ hd, hj,
        if_false]

/-- Closed witness for the amended C2 theorem at concrete inputs. -/
theorem c2_bit_conventions_amended_witness :
    MhdSample.get_bit [200] 1 = Util.get_bit [200] 6 ∧
      ((MinimalSolution.new 8).make_decision 3 true).get_decision 3 = some true :=
  ⟨(c2_bit_conventions_amended.1 [200] 1).2.2,
    (c2_bit_conventions_amended.2 (MinimalSolution.new 8) 3 true (by decide) (by decide)).1⟩

/-! ## `MhdMonteCarloSolver::is_finished` (claim C10) -/

/-- C10 counterexample: the claim adds "once the memory reaches that
bound the solver reports itself finished".  For width 4 the saturation
bound is `2^4 = 16`, yet a memory holding exactly 16 samples is *not*
reported finished, because the code tests `max_solutions <
number_of_solutions()` strictly. -/
theorem c10_is_finished_at_bound_counterexample :
    mc_is_finished 4 (2 ^ 4) = false := by decide

/-! ## Memory write/search lemmas (claims C5 and C6) -/

/-- When `write_sample` reports a fresh insertion, the new memory's
sample list is the old one with the incoming sample appended. -/
theorem write_sample_ok_true_samples (m : MhdMemory) (s : Sample) (m2 : MhdMemory)
    (hok : MhdMemory.write_sample m s = .ok (true, m2)) :
    m2.samples = m.samples ++ [s] := by
  unfold MhdMemory.write_sample at hok
  split at hok
  · simp at hok
  · split at hok
    · simp only [Except.ok.injEq, Prod.mk.injEq, true_and] at hok
      rw [← hok]
    · split at hok
      · split at hok <;> simp at hok
      · simp only [Except.ok.injEq, Prod.mk.injEq, true_and] at hok
        rw [← hok]

/-- C5: for a sample of the memory's width, (a) whenever
`write_sample` returns true the sample is found again by `search`
(a stored sample with exactly the queried bytes), and (b) when the
memory already holds a sample with the same bytes and the same score,
`write_sample` returns false and the memory record -- all of
`num_samples`, `samples`, `total_score`, `min_score`, `max_score` --
is returned unchanged.  The hypothesis `hdup` is the memory invariant
that byte-equal stored samples carry equal scores (spec section 3);
without it the unordered `find_any` could surface a conflicting
duplicate and panic. -/
theorem c5_write_then_search (m : MhdMemory) (s : Sample)
    (hw : m.width = s.size)
    (hdup : ∀ t1 ∈ m.samples, ∀ t2 ∈ m.samples, t1.bytes = t2.bytes → t1.score = t2.score) :
    (∀ m2 : MhdMemory, MhdMemory.write_sample m s = .ok (true, m2) →
      ∃ t : Sample, MhdMemory.search m2 s = some t ∧ t.bytes = s.bytes) ∧
    ((∃ t ∈ m.samples, t.bytes = s.bytes ∧ t.score = s.score) →
      MhdMemory.write_sample m s = .ok (false, m)) := by
  constructor
  · intro m2 hok
    have hsamp : m2.samples = m.samples ++ [s] := write_sample_ok_true_samples m s m2 hok
    have hmem : s ∈ m2.samples := by rw [hsamp]; simp
    have hsome : (MhdMemory.search m2 s).isSome :=
      List.find?_isSome.mpr ⟨s, hmem, by simp⟩
    obtain ⟨t, ht⟩ := Option.isSome_iff_exists.mp hsome
    have ht2 : List.find? (fun u => decide (u.bytes = s.bytes)) m2.samples = some t := ht
    exact ⟨t, ht, by simpa using List.find?_some ht2⟩
  · rintro ⟨t, htmem, htbytes, htscore⟩
    have hne : m.samples ≠ [] := List.ne_nil_of_mem htmem
    have hsome : (MhdMemory.search m s).isSome :=
      List.find?_isSome.mpr ⟨t, htmem, by simp [htbytes]⟩
    obtain ⟨elder, helder⟩ := Option.isSome_iff_exists.mp hsome
    have helder2 : List.find? (fun u => decide (u.bytes = s.bytes)) m.samples = some elder :=
      helder
    have helderMem : elder ∈ m.samples := List.mem_of_find?_eq_some helder2
    have helderBytes : elder.bytes = s.bytes := by simpa using List.find?_some helder2
    have helderScore : elder.score = s.score := by
      have := hdup elder helderMem t htmem (by rw [helderBytes, htbytes])
      rw [this, htscore]
    have hemp : ¬ (m.is_empty = true) := by
      simp [MhdMemory.is_empty, List.isEmpty_iff, hne]
    unfold MhdMemory.write_sample
    rw [if_neg (by simp [hw]), if_neg hemp, helder]
    simp [helderScore]

/-- Closed witness for C5: re-writing the stored sample is a no-op
returning false, and a fresh write into the empty memory is found again
by `search`. -/
theorem c5_write_then_search_witness :
    MhdMemory.write_sample c56Mem ⟨8, [1], 5⟩ = .ok (false, c56Mem) ∧
    (∃ t : Sample,
      MhdMemory.search
        { width := 8, total_score := 5, max_score := 5, min_score := 5,
          samples := [⟨8, [1], 5⟩] } ⟨8, [1], 5⟩ = some t ∧
      t.bytes = (⟨8, [1], 5⟩ : Sample).bytes) := by
  have h := c5_write_then_search c56Mem ⟨8, [1], 5⟩ (by decide)
    (by intro t1 h1 t2 h2 hb; simp [c56Mem] at h1 h2; rw [h1, h2])
  refine ⟨h.2 ⟨⟨8, [1], 5⟩, by simp [c56Mem], rfl, rfl⟩, ?_⟩
  have h0 := c5_write_then_search
    { width := 8, total_score := 0, max_score := 0, min_score := 0, samples := [] }
    ⟨8, [1], 5⟩ (by decide) (by intro t1 h1; simp at h1)
  exact h0.1 _ (by rfl)

/-- C6: for a sample of the memory's width, `write_sample` fails --
with the `InconsistentScore` panic, never any other way and never as a
silent update -- exactly when the memory already stores a sample with
the same bytes but a different score.  In the model the error is
produced at the program point of the `assert_eq!`, before any field of
the memory record has been touched, mirroring the code, where the
duplicate branch performs no mutation. -/
theorem c6_write_fails_iff_inconsistent (m : MhdMemory) (s : Sample)
    (hw : m.width = s.size)
    (hdup : ∀ t1 ∈ m.samples, ∀ t2 ∈ m.samples, t1.bytes = t2.bytes → t1.score = t2.score) :
    ((∃ e, MhdMemory.write_sample m s = .error e) ↔
      ∃ t ∈ m.samples, t.bytes = s.bytes ∧ t.score ≠ s.score) ∧
    (∀ e, MhdMemory.write_sample m s = .error e → e = .inconsistentScore) := by
  have hwidth : ¬ (m.width ≠ s.size) := by simp [hw]
  constructor
  · constructor
    · rintro ⟨e, herr⟩
      unfold MhdMemory.write_sample at herr
      rw [if_neg hwidth] at herr
      split at herr
      · simp at herr
      · split at herr
        · rename_i elder helder
          split at herr
          · simp at herr
          · rename_i hscore
            have helder2 :
                List.find? (fun u => decide (u.bytes = s.bytes)) m.samples = some elder :=
              helder
            exact ⟨elder, List.mem_of_find?_eq_some helder2,
              by simpa using List.find?_some helder2, hscore⟩
        · simp at herr
    · rintro ⟨t, htmem, htbytes, htscore⟩
      have hne : m.samples ≠ [] := List.ne_nil_of_mem htmem
      have hsome : (MhdMemory.search m s).isSome :=
        List.find?_isSome.mpr ⟨t, htmem, by simp [htbytes]⟩
      obtain ⟨elder, helder⟩ := Option.isSome_iff_exists.mp hsome
      have helder2 : List.find? (fun u => decide (u.bytes = s.bytes)) m.samples = some elder :=
        helder
      have helderMem : elder ∈ m.samples := List.mem_of_find?_eq_some helder2
      have helderBytes : elder.bytes = s.bytes := by simpa using List.find?_some helder2
      have helderScore : elder.score ≠ s.score := by
        intro hcontra
        exact htscore (by
          rw [hdup t htmem elder helderMem (by rw [htbytes, helderBytes]), hcontra])
      have hemp : ¬ (m.is_empty = true) := by
        simp [MhdMemory.is_empty, List.isEmpty_iff, hne]
      refine ⟨.inconsistentScore, ?_⟩
      unfold MhdMemory.write_sample
      rw [if_neg hwidth, if_neg hemp, helder]
      simp [helderScore]
  · intro e herr
    unfold MhdMemory.write_sample at herr
    rw [if_neg hwidth] at herr
    split at herr
    · simp at herr
    · split at herr
      · split at herr
        · simp at herr
        · simp only [Except.error.injEq] at herr
          rw [← herr]
      · simp at herr

/-- Closed witness for C6: writing bytes `[1]` with score 6 into a
memory that stores bytes `[1]` with score 5 fails with the
`InconsistentScore` panic. -/
theorem c6_write_fails_iff_inconsistent_witness :
    MhdMemory.write_sample c56Mem ⟨8, [1], 6⟩ = .error .inconsistentScore := by
  have h := c6_write_fails_iff_inconsistent c56Mem ⟨8, [1], 6⟩ (by decide)
    (by intro t1 h1 t2 h2 hb; simp [c56Mem] at h1 h2; rw [h1, h2])
  obtain ⟨e, he⟩ := h.1.mpr ⟨⟨8, [1], 5⟩, by simp [c56Mem], rfl, by decide⟩
  rw [h.2 e he] at he
  exact he

/-- C10 amended: `is_finished()` returns true exactly when the number
of samples *strictly exceeds* the saturation bound -- `2^width` for
widths at most 28, `2^30 / ⌈width/8⌉` for larger widths; at exactly the
bound the solver still reports unfinished. -/
theorem c10_is_finished_amended (width num_samples : Nat) :
    mc_is_finished width num_samples = true ↔
      (if width ≤ 28 then 2 ^ width else 2 ^ 30 / ((width + 7) / 8)) < num_samples := by
  unfold mc_is_finished
  rcases Nat.decLe width 28 with h | h <;>
    simp [Nat.shiftLeft_eq, h]

/-! ## `masked_read` lemmas (claims C3 and C9) -/

/-- Left fold of componentwise rational sums, the shape of the
`masked_read` reduction. -/
theorem foldl_pair_sum (l : List Sample) (f g : Sample → ℚ) (a b : ℚ) :
    l.foldl (fun (acc : ℚ × ℚ) s => (acc.1 + f s, acc.2 + g s)) (a, b) =
      (a + (l.map f).sum, b + (l.map g).sum) := by
  induction l generalizing a b with
  | nil => simp
  | cons x t ih => simp [List.foldl_cons, ih, add_assoc]

/-- What `masked_read` computes, as a quotient of mapped sums: each
sample contributes `avg + (score - avg) * w` to the numerator -- the
weight multiplies only the deviation from the average -- and `w` to the
denominator. -/
theorem masked_read_eq_sums (m : MhdMemory) (mask query : List Nat) :
    MhdMemory.masked_read m mask query =
      ratToScore
        ((m.samples.map (fun s =>
            (m.avg_score : ℚ) +
              ((s.score : ℚ) - (m.avg_score : ℚ)) *
                (1 / ((specDistance mask query s.bytes : ℚ) + 1)))).sum /
          (m.samples.map (fun s =>
            1 / ((specDistance mask query s.bytes : ℚ) + 1))).sum) := by
  simp only [MhdMemory.masked_read]
  rw [foldl_pair_sum]
  simp

/-- C3 counterexample: on the two-sample memory `c3Mem` (scores 0 and
30, average 15) probed with a full mask at query `[0x00]`, the code's
`masked_read` returns 15 whereas the spec formula
`(Σ_s w_s (avg + (s.score − avg))) / Σ_s w_s` -- in which the weight
multiplies the whole sample estimate, so it reduces to the plain
weighted mean `(Σ w_s · s.score) / Σ w_s` -- yields 10.  Every
intermediate value here is exact in `f64` (halves of small integers),
so the rational model agrees with the compiled arithmetic. -/
theorem c3_masked_read_counterexample :
    MhdMemory.masked_read c3Mem [0xFF] [0x00] = 15 ∧
      claimMaskedRead c3Mem [0xFF] [0x00] = 10 := by
  have h1 : specDistance [0xFF] [0x00] [0x00] = 0 := by decide
  have h2 : specDistance [0xFF] [0x00] [0x01] = 1 := by decide
  have havg : c3Mem.avg_score = 15 := by decide
  constructor
  · rw [masked_read_eq_sums, havg]
    simp only [c3Mem, h1, h2, List.map_cons, List.map_nil, List.sum_cons, List.sum_nil]
    have hq : ((((15 : Nat) : ℚ) + (((0 : Nat) : ℚ) - ((15 : Nat) : ℚ)) * (1 / (((0 : Nat) : ℚ) + 1)) +
          (((15 : Nat) : ℚ) + (((30 : Nat) : ℚ) - ((15 : Nat) : ℚ)) * (1 / (((1 : Nat) : ℚ) + 1)) + 0)) /
        (1 / (((0 : Nat) : ℚ) + 1) + (1 / (((1 : Nat) : ℚ) + 1) + 0))) = ((15 : Nat) : ℚ) := by
      push_cast
      norm_num
    rw [hq]
    unfold ratToScore
    exact Nat.floor_natCast 15
  · unfold claimMaskedRead
    rw [havg]
    simp only [c3Mem, specMRWeight, h1, h2, List.map_cons, List.map_nil, List.sum_cons,
      List.sum_nil]
    have hq : ((1 / (((0 : Nat) : ℚ) + 1) * (((15 : Nat) : ℚ) + (((0 : Nat) : ℚ) - ((15 : Nat) : ℚ))) +
          (1 / (((1 : Nat) : ℚ) + 1) * (((15 : Nat) : ℚ) + (((30 : Nat) : ℚ) - ((15 : Nat) : ℚ))) + 0)) /
        (1 / (((0 : Nat) : ℚ) + 1) + (1 / (((1 : Nat) : ℚ) + 1) + 0))) = ((10 : Nat) : ℚ) := by
      push_cast
      norm_num
    rw [hq]
    unfold ratToScore
    exact Nat.floor_natCast 10

/-- C3 amended: `masked_read(mask, query)` equals
`(Σ_s (avg + w_s · (s.score − avg))) / (Σ_s w_s)` -- the weight `w_s =
1 / (distance(mask, query, s.bytes) + 1)` multiplies only the
deviation of the sample's score from the running average, not the whole
summand -- cast to the score type; and on an empty memory the result is
the zero score (the `0/0` of the empty reduction is `NaN`, which the
`as ScoreType` cast maps to 0, as does the rational model). -/
theorem c3_masked_read_amended :
    (∀ (m : MhdMemory) (mask query : List Nat),
      MhdMemory.masked_read m mask query =
        ratToScore
          ((m.samples.map (fun s =>
              (m.avg_score : ℚ) +
                (1 / ((specDistance mask query s.bytes : ℚ) + 1)) *
                  ((s.score : ℚ) - (m.avg_score : ℚ)))).sum /
            (m.samples.map (fun s =>
              1 / ((specDistance mask query s.bytes : ℚ) + 1))).sum)) ∧
    (∀ (wd ts mx mn : Nat) (mask query : List Nat),
      MhdMemory.masked_read ⟨wd, ts, mx, mn, []⟩ mask query = 0) := by
  constructor
  · intro m mask query
    rw [masked_read_eq_sums]
    congr 2
    exact congrArg List.sum (List.map_congr_left (fun s _ => by ring))
  · intro wd ts mx mn mask query
    rw [masked_read_eq_sums]
    simp [ratToScore]

/-- The masked distance under an all-zero mask is zero, whatever the
operands (`0 & z = 0` byte for byte, through the fast path as well as
the fallback for the modelled spec distance). -/
theorem foldl_popcount_zero (L : List (Nat × Nat × Nat)) (h : ∀ e ∈ L, e.1 = 0) :
    L.foldl (fun a mbc => a + popcount (mbc.1 &&& (mbc.2.1 ^^^ mbc.2.2))) 0 = 0 := by
  induction L with
  | nil => rfl
  | cons a t ih =>
    have ha : a.1 = 0 := h a (by simp)
    have ht : ∀ e ∈ t, e.1 = 0 := fun e he => h e (by simp [he])
    simpa [List.foldl_cons, ha, popcount, popcountAux, Nat.zero_and] using ih ht

/-- Specialisation: `naive` (and hence the spec distance) vanishes on a
replicated zero mask. -/
theorem naive_zero_mask (k : Nat) (x y : List Nat) :
    naive (List.replicate k 0) x y = 0 := by
  unfold naive
  exact foldl_popcount_zero _
    (fun e he => List.eq_of_mem_replicate (List.of_mem_zip he).1)

/-- The spec distance under an all-zero mask vanishes. -/
theorem specDistance_zero_mask (k : Nat) (x y : List Nat) :
    specDistance (List.replicate k 0) x y = 0 :=
  naive_zero_mask k x y

/-- C9: on a memory whose `total_score` field is the sum of its
samples' scores (the invariant `write_sample` maintains), `masked_read`
with an all-zero mask returns exactly `avg_score`: every masked
distance is 0, every weight is 1, each sample contributes its own
score, and the final cast truncates the exact mean to the same value as
the integer division inside `avg_score`. -/
theorem c9_masked_read_zero_mask (m : MhdMemory) (k : Nat) (query : List Nat)
    (htot : m.total_score = (m.samples.map Sample.score).sum) :
    MhdMemory.masked_read m (List.replicate k 0) query = m.avg_score := by
  rw [masked_read_eq_sums]
  have hf : (m.samples.map (fun s =>
      (m.avg_score : ℚ) +
        ((s.score : ℚ) - (m.avg_score : ℚ)) *
          (1 / ((specDistance (List.replicate k 0) query s.bytes : ℚ) + 1)))) =
      m.samples.map (fun s => (s.score : ℚ)) := by
    apply List.map_congr_left
    intro s _
    rw [specDistance_zero_mask k query s.bytes]
    push_cast
    ring
  have hg : (m.samples.map (fun s =>
      1 / ((specDistance (List.replicate k 0) query s.bytes : ℚ) + 1))) =
      m.samples.map (fun _ => (1 : ℚ)) := by
    apply List.map_congr_left
    intro s _
    rw [specDistance_zero_mask k query s.bytes]
    norm_num
  rw [hf, hg]
  have hsum1 : (m.samples.map (fun s => (s.score : ℚ))).sum =
      ((m.samples.map Sample.score).sum : ℚ) := by
    rw [Nat.cast_list_sum, List.map_map]
    rfl
  have hsum2 : (m.samples.map (fun _ => (1 : ℚ))).sum = (m.num_samples : ℚ) := by
    simp [MhdMemory.num_samples]
  rw [hsum1, hsum2, ← htot]
  unfold MhdMemory.avg_score ratToScore
  by_cases he : m.is_empty
  · have hnil : m.samples = [] := by
      simpa [MhdMemory.is_empty, List.isEmpty_iff] using he
    have hn : m.num_samples = 0 := by simp [MhdMemory.num_samples, hnil]
    simp [he, hn]
  · rw [if_neg he, Nat.floor_div_nat, Nat.floor_natCast]

/-- Closed witness for C9: on the one-sample memory `c56Mem` a
zero-mask read returns the average score. -/
theorem c9_masked_read_zero_mask_witness :
    MhdMemory.masked_read c56Mem (List.replicate 1 0) [0] = MhdMemory.avg_score c56Mem :=
  c9_masked_read_zero_mask c56Mem 1 [0] (by rfl)

/-! ## `read_2_priorities` (claim C4) -/

/-- The rayon reduce of `read_2_priorities`, folded over the sample
list: each accumulator field is its initial value plus the
corresponding side sum over the list. -/
theorem prio_foldl_eq (distMul : Nat → Nat → ℚ) (threshold : Nat)
    (mask query : List Nat) (index : Nat) (l : List Sample) (acc : MhdMemory.PrioAcc) :
    l.foldl (MhdMemory.prioStep distMul threshold mask query index) acc =
      { score_false := acc.score_false + listScore distMul threshold mask query index false l
        score_true := acc.score_true + listScore distMul threshold mask query index true l
        weight_false := acc.weight_false + listWeight distMul threshold mask query index false l
        weight_true := acc.weight_true + listWeight distMul threshold mask query index true l
        hits_false := acc.hits_false + listHits mask query index false l
        hits_true := acc.hits_true + listHits mask query index true l } := by
  induction l generalizing acc with
  | nil =>
    cases acc
    simp [listScore, listWeight, listHits, sideSamples]
  | cons s t ih =>
    rw [List.foldl_cons, ih]
    by_cases hth : threshold < specDistance mask query s.bytes
    · have hle : ¬ (specDistance mask query s.bytes ≤ threshold) := not_le.mpr hth
      have hne0 : ¬ (specDistance mask query s.bytes = 0) := by omega
      simp [MhdMemory.prioStep, hth, listScore, listWeight, listHits, sideSamples,
        List.filter_cons, hle, hne0]
    · have hle : specDistance mask query s.bytes ≤ threshold := not_lt.mp hth
      by_cases hbit : s.get_bit index
      · by_cases h0 : specDistance mask query s.bytes = 0 <;>
          simp [MhdMemory.prioStep, hth, hbit, listScore, listWeight, listHits,
            sideSamples, List.filter_cons, hle, h0] <;>
          (repeat' apply And.intro) <;> ring
      · by_cases h0 : specDistance mask query s.bytes = 0 <;>
          simp [MhdMemory.prioStep, hth, hbit, listScore, listWeight, listHits,
            sideSamples, List.filter_cons, hle, h0] <;>
          (repeat' apply And.intro) <;> ring

/-! ## Solution and subset-sum lemmas (claims C7 and C8) -/

/-- Componentwise sum of mapped additions (any additive commutative
monoid). -/
theorem sum_map_add {α M : Type _} [AddCommMonoid M] (l : List α) (f g : α → M) :
    (l.map (fun x => f x + g x)).sum = (l.map f).sum + (l.map g).sum := by
  induction l with
  | nil => simp
  | cons a t ih =>
    simp only [List.map_cons, List.sum_cons, ih]
    exact add_add_add_comm _ _ _ _

/-- A sum of an indicator-like map over a duplicate-free list holding
at the single index `i`. -/
theorem sum_map_single (n i c : Nat) (hi : i < n) :
    ((List.range n).map (fun j => if j = i then c else 0)).sum = c := by
  induction n with
  | zero => omega
  | succ k ih =>
    rw [List.range_succ, List.map_append, List.sum_append]
    rcases Nat.lt_or_ge i k with hik | hik
    · have hk : ¬ (k = i) := by omega
      simp [ih hik, hk]
    · have hk : k = i := by omega
      subst hk
      have hz : ((List.range k).map (fun j => if j = k then c else 0)).sum = 0 := by
        apply List.sum_eq_zero
        intro x hx
        obtain ⟨j, hj, rfl⟩ := List.mem_map.mp hx
        have : j < k := List.mem_range.mp hj
        simp [show ¬ (j = k) by omega]
      simp [hz]

/-- A mapped sum guarded by a boolean condition equals the sum over the
filtered list. -/
theorem sum_map_ite_filter {M : Type _} [AddCommMonoid M] (l : List Nat) (q : Nat → Bool)
    (f : Nat → M) :
    (l.map (fun j => if q j then f j else 0)).sum = ((l.filter q).map f).sum := by
  induction l with
  | nil => simp
  | cons a t ih =>
    by_cases hq : q a <;> simp [List.filter_cons, hq, ih]

/-- The method `make_decision` does not touch the scalar fields of a
solution. -/
theorem make_decision_fields (s : MinimalSolution) (i : Nat) (v : Bool) :
    (s.make_decision i v).size = s.size ∧ (s.make_decision i v).score = s.score ∧
      (s.make_decision i v).best_score = s.best_score ∧
      (s.make_decision i v).priority = s.priority :=
  ⟨rfl, rfl, rfl, rfl⟩

/-- The method `make_decision` preserves both buffer lengths. -/
theorem make_decision_lengths (s : MinimalSolution) (i : Nat) (v : Bool) :
    (s.make_decision i v).mask.length = s.mask.length ∧
      (s.make_decision i v).decisions.length = s.decisions.length :=
  ⟨util_put_bit_length _ _ _, util_put_bit_length _ _ _⟩

/-- Reading any decision after `make_decision`: the decided index
reports the new value, every other index is untouched (also within the
same octet). -/
theorem get_decision_make_decision (s : MinimalSolution) (i : Nat) (v : Bool) (j : Nat)
    (hm : i / 8 < s.mask.length) (hd : i / 8 < s.decisions.length) :
    (s.make_decision i v).get_decision j =
      if j = i then some v else s.get_decision j := by
  unfold MinimalSolution.make_decision MinimalSolution.get_decision
  simp only [util_get_bit_put_bit _ _ _ _ hm, util_get_bit_put_bit _ _ _ _ hd]
  rcases eq_or_ne j i with rfl | hji
  · simp
  · simp [hji]

/-- Changing only the scalar fields leaves every decision unchanged. -/
theorem get_decision_set_score (s : MinimalSolution) (a b : Nat) (j : Nat) :
    ({ s with score := a, best_score := b } : MinimalSolution).get_decision j =
      s.get_decision j := rfl

/-- Updating the stored best score leaves every decision unchanged. -/
theorem get_decision_set_best (x : MinimalSolution) (e : Nat) (j : Nat) :
    ({ x with best_score := e } : MinimalSolution).get_decision j =
      x.get_decision j := rfl

/-- The sum `solution_scoreI` ignores a decision closed as false (the summand of
an open decision and of a false decision are both zero). -/
theorem solution_score_make_false (p : ProblemSubsetSum) (s : MinimalSolution) (i : Nat)
    (hm : i / 8 < s.mask.length) (hd : i / 8 < s.decisions.length)
    (hnt : s.get_decision i ≠ some true) :
    p.solution_scoreI (s.make_decision i false) = p.solution_scoreI s := by
  unfold ProblemSubsetSum.solution_scoreI
  congr 1
  apply List.map_congr_left
  intro j _
  rw [get_decision_make_decision s i false j hm hd]
  rcases eq_or_ne j i with rfl | hji
  · simp only [if_pos rfl]
    cases hgd : s.get_decision j with
    | none => rfl
    | some b => cases b with
      | false => rfl
      | true => exact absurd hgd hnt
  · simp [hji]

/-- The sum `solution_scoreI` grows by the item's weight when an open decision
is closed as true. -/
theorem solution_score_make_true (p : ProblemSubsetSum) (s : MinimalSolution) (i : Nat)
    (hi : i < p.problem_size)
    (hm : i / 8 < s.mask.length) (hd : i / 8 < s.decisions.length)
    (hopen : s.get_decision i = none) :
    p.solution_scoreI (s.make_decision i true) = p.solution_scoreI s + p.w i := by
  unfold ProblemSubsetSum.solution_scoreI
  have hpt : ∀ j ∈ List.range p.problem_size,
      (match (s.make_decision i true).get_decision j with
        | some true => p.w j
        | _ => 0) =
        (match s.get_decision j with
          | some true => p.w j
          | _ => 0) + (if j = i then p.w i else 0) := by
    intro j _
    rw [get_decision_make_decision s i true j hm hd]
    rcases eq_or_ne j i with rfl | hji
    · simp [hopen]
    · simp [hji]
  rw [List.map_congr_left hpt, sum_map_add, sum_map_single _ _ _ hi]

/-- The sum `solution_scoreI` drops by the item's weight when a true decision is
reopened as false (used by the repair loop of `random_solutionI`). -/
theorem solution_score_unmake_true (p : ProblemSubsetSum) (s : MinimalSolution) (i : Nat)
    (hi : i < p.problem_size)
    (hm : i / 8 < s.mask.length) (hd : i / 8 < s.decisions.length)
    (htrue : s.get_decision i = some true) :
    p.solution_scoreI s = p.solution_scoreI (s.make_decision i false) + p.w i := by
  unfold ProblemSubsetSum.solution_scoreI
  have hpt : ∀ j ∈ List.range p.problem_size,
      (match s.get_decision j with
        | some true => p.w j
        | _ => 0) =
        (match (s.make_decision i false).get_decision j with
          | some true => p.w j
          | _ => 0) + (if j = i then p.w i else 0) := by
    intro j _
    rw [get_decision_make_decision s i false j hm hd]
    rcases eq_or_ne j i with rfl | hji
    · simp [htrue]
    · simp [hji]
  rw [List.map_congr_left hpt, sum_map_add, sum_map_single _ _ _ hi]

/-- The early-return loop of `solution_best_scoreI`, solved in closed
form: starting below the capacity it computes the capped total. -/
theorem bestScoreAux_eq (p : ProblemSubsetSum) (s : MinimalSolution) (bits : List Nat) :
    ∀ acc : Nat, acc ≤ p.capacity →
    p.bestScoreAuxI s bits acc =
      (if p.capacity < acc + ((bits.map (fun j =>
          match s.get_decision j with
          | some false => 0
          | _ => p.w j)).sum) then p.capacity
       else acc + ((bits.map (fun j =>
          match s.get_decision j with
          | some false => 0
          | _ => p.w j)).sum)) := by
  induction bits with
  | nil =>
    intro acc hacc
    simp [ProblemSubsetSum.bestScoreAuxI, Nat.not_lt.mpr hacc]
  | cons b rest ih =>
    intro acc hacc
    simp only [ProblemSubsetSum.bestScoreAuxI, List.map_cons, List.sum_cons]
    set c : Nat := (match s.get_decision b with
      | some false => 0
      | _ => p.w b) with hc
    set rsum : Nat := ((rest.map (fun j =>
      match s.get_decision j with
      | some false => 0
      | _ => p.w j)).sum) with hr
    have hsplit : (match s.get_decision b with
        | some false => acc
        | _ => acc + p.w b) = acc + c := by
      rw [hc]
      cases hgd : s.get_decision b with
      | none => rfl
      | some v => cases v <;> simp
    rw [hsplit]
    by_cases hover : p.capacity < acc + c
    · rw [if_pos hover, if_pos (by omega)]
    · rw [if_neg hover, ih (acc + c) (by omega)]
      have : acc + c + rsum = acc + (c + rsum) := by omega
      rw [this]

/-- The audit loop accepts exactly when no open decision among the
visited bits exceeds the headroom, and then returns the accumulator
plus the weights of the open bits. -/
theorem auditAux_spec (p : ProblemSubsetSum) (s : MinimalSolution) (H : Nat)
    (bits : List Nat) :
    ∀ acc : Nat,
    (∀ b ∈ bits, (s.get_decision b).isNone = true → p.w b ≤ H) →
    p.auditAuxI s H bits acc =
      some (acc + ((bits.filter (fun b => (s.get_decision b).isNone)).map p.w).sum) := by
  induction bits with
  | nil => intro acc _; simp [ProblemSubsetSum.auditAuxI]
  | cons b rest ih =>
    intro acc hok
    simp only [ProblemSubsetSum.auditAuxI]
    by_cases hopen : (s.get_decision b).isNone
    · have hwb : p.w b ≤ H := hok b (by simp) hopen
      rw [if_pos hopen, if_neg (by omega)]
      rw [ih (acc + p.w b) (fun b2 hb2 h2 => hok b2 (by simp [hb2]) h2)]
      simp [List.filter_cons, hopen, Nat.add_assoc]
    · rw [if_neg hopen]
      rw [ih acc (fun b2 hb2 h2 => hok b2 (by simp [hb2]) h2)]
      simp [List.filter_cons, hopen]

/-- When the audit loop rejects there is a visited open decision over
the headroom; contrapositively, a passed audit bounds every open
weight.  Stated as the extraction used on audited parents. -/
theorem auditAux_some_bound (p : ProblemSubsetSum) (s : MinimalSolution) (H : Nat)
    (bits : List Nat) :
    ∀ (acc r : Nat), p.auditAuxI s H bits acc = some r →
    ∀ b ∈ bits, (s.get_decision b).isNone = true → p.w b ≤ H := by
  induction bits with
  | nil => intro acc r _ b hb; simp at hb
  | cons b0 rest ih =>
    intro acc r hsome b hb hopen
    simp only [ProblemSubsetSum.auditAuxI] at hsome
    rcases List.mem_cons.mp hb with rfl | hbr
    · by_cases h0 : (s.get_decision b).isNone
      · rw [if_pos h0] at hsome
        by_cases hw : H < p.w b
        · rw [if_pos hw] at hsome; simp at hsome
        · omega
      · exact absurd hopen h0
    · by_cases h0 : (s.get_decision b0).isNone
      · rw [if_pos h0] at hsome
        by_cases hw : H < p.w b0
        · rw [if_pos hw] at hsome; simp at hsome
        · rw [if_neg hw] at hsome
          exact ih _ _ hsome b hbr hopen
      · rw [if_neg h0] at hsome
        exact ih _ _ hsome b hbr hopen

/-- Full description of the closing loop of `apply_rulesI` on a
duplicate-free, in-range bit list: scalar fields and buffer lengths are
preserved, decisions outside the list are untouched, a visited open
decision too heavy for the headroom is closed as false while every
other visited decision keeps its value, and the accumulator collects
the weights of the open decisions that fit. -/
theorem applyRulesAux_spec (p : ProblemSubsetSum) (H : Nat) :
    ∀ bits : List Nat, bits.Nodup →
    ∀ (sol : MinimalSolution) (acc : Nat),
    (∀ b ∈ bits, b / 8 < sol.mask.length ∧ b / 8 < sol.decisions.length) →
    ((p.applyRulesAuxI H bits (sol, acc)).1.size = sol.size ∧
     (p.applyRulesAuxI H bits (sol, acc)).1.score = sol.score ∧
     (p.applyRulesAuxI H bits (sol, acc)).1.best_score = sol.best_score ∧
     (p.applyRulesAuxI H bits (sol, acc)).1.priority = sol.priority ∧
     (p.applyRulesAuxI H bits (sol, acc)).1.mask.length = sol.mask.length ∧
     (p.applyRulesAuxI H bits (sol, acc)).1.decisions.length = sol.decisions.length) ∧
    (∀ j, j ∉ bits →
      (p.applyRulesAuxI H bits (sol, acc)).1.get_decision j = sol.get_decision j) ∧
    (∀ b ∈ bits, (p.applyRulesAuxI H bits (sol, acc)).1.get_decision b =
      if (sol.get_decision b).isNone ∧ H < p.w b then some false
      else sol.get_decision b) ∧
    (p.applyRulesAuxI H bits (sol, acc)).2 =
      acc + ((bits.filter
        (fun b => (sol.get_decision b).isNone && decide (p.w b ≤ H))).map p.w).sum := by
  intro bits
  induction bits with
  | nil =>
    intro _ sol acc _
    refine ⟨⟨rfl, rfl, rfl, rfl, rfl, rfl⟩, fun j _ => rfl, fun b hb => absurd hb (by simp),
      by simp [ProblemSubsetSum.applyRulesAuxI]⟩
  | cons b rest ih =>
    intro hnd sol acc hrange
    have hndr : rest.Nodup := (List.nodup_cons.mp hnd).2
    have hbnr : b ∉ rest := (List.nodup_cons.mp hnd).1
    have hbm : b / 8 < sol.mask.length := (hrange b (by simp)).1
    have hbd : b / 8 < sol.decisions.length := (hrange b (by simp)).2
    simp only [ProblemSubsetSum.applyRulesAuxI]
    by_cases hopen : (sol.get_decision b).isNone
    · by_cases hbig : H < p.w b
      · rw [if_pos hopen, if_pos hbig]
        have hlen2 := make_decision_lengths sol b false
        have hrange2 : ∀ b2 ∈ rest,
            b2 / 8 < (sol.make_decision b false).mask.length ∧
              b2 / 8 < (sol.make_decision b false).decisions.length := by
          intro b2 hb2
          rw [hlen2.1, hlen2.2]
          exact hrange b2 (by simp [hb2])
        have hgd2 : ∀ j, j ≠ b →
            (sol.make_decision b false).get_decision j = sol.get_decision j := by
          intro j hj
          rw [get_decision_make_decision sol b false j hbm hbd]
          simp [hj]
        have hgd2b : (sol.make_decision b false).get_decision b = some false := by
          rw [get_decision_make_decision sol b false b hbm hbd]
          simp
        obtain ⟨hfields, hout, hin, hacc⟩ := ih hndr (sol.make_decision b false) acc hrange2
        have hfld2 := make_decision_fields sol b false
        refine ⟨?_, ?_, ?_, ?_⟩
        · exact ⟨hfields.1.trans hfld2.1, hfields.2.1.trans hfld2.2.1,
            hfields.2.2.1.trans hfld2.2.2.1, hfields.2.2.2.1.trans hfld2.2.2.2,
            hfields.2.2.2.2.1.trans hlen2.1, hfields.2.2.2.2.2.trans hlen2.2⟩
        · intro j hj
          have hjr : j ∉ rest := fun hc => hj (by simp [hc])
          have hjb : j ≠ b := fun hc => hj (by simp [hc])
          rw [hout j hjr, hgd2 j hjb]
        · intro b2 hb2
          rcases List.mem_cons.mp hb2 with rfl | hb2r
          · rw [hout b2 hbnr, hgd2b, if_pos ⟨hopen, hbig⟩]
          · rw [hin b2 hb2r, hgd2 b2 (fun hc => hbnr (hc ▸ hb2r))]
        · rw [hacc]
          have hfil : rest.filter
              (fun b2 => ((sol.make_decision b false).get_decision b2).isNone &&
                decide (p.w b2 ≤ H)) =
              rest.filter
                (fun b2 => (sol.get_decision b2).isNone && decide (p.w b2 ≤ H)) := by
            apply List.filter_congr
            intro b2 hb2
            rw [hgd2 b2 (fun hc => hbnr (hc ▸ hb2))]
          rw [hfil]
          have hdropb : ((sol.get_decision b).isNone && decide (p.w b ≤ H)) = false := by
            simp [Nat.not_le.mpr hbig]
          simp [List.filter_cons, hdropb]
      · rw [if_pos hopen, if_neg hbig]
        obtain ⟨hfields, hout, hin, hacc⟩ := ih hndr sol (acc + p.w b)
          (fun b2 hb2 => hrange b2 (by simp [hb2]))
        refine ⟨hfields, ?_, ?_, ?_⟩
        · intro j hj
          exact hout j (fun hc => hj (by simp [hc]))
        · intro b2 hb2
          rcases List.mem_cons.mp hb2 with rfl | hb2r
          · rw [hout b2 hbnr, if_neg (by exact fun hc => hbig hc.2)]
          · exact hin b2 hb2r
        · rw [hacc]
          have hkeepb : ((sol.get_decision b).isNone && decide (p.w b ≤ H)) = true := by
            simp [hopen, Nat.not_lt.mp hbig]
          simp [List.filter_cons, hkeepb, Nat.add_assoc]
    · rw [if_neg hopen]
      obtain ⟨hfields, hout, hin, hacc⟩ := ih hndr sol acc
        (fun b2 hb2 => hrange b2 (by simp [hb2]))
      refine ⟨hfields, ?_, ?_, ?_⟩
      · intro j hj
        exact hout j (fun hc => hj (by simp [hc]))
      · intro b2 hb2
        rcases List.mem_cons.mp hb2 with rfl | hb2r
        · rw [hout b2 hbnr, if_neg (by exact fun hc => hopen hc.1)]
        · exact hin b2 hb2r
      · rw [hacc]
        have hdropb : ((sol.get_decision b).isNone && decide (p.w b ≤ H)) = false := by
          simp [hopen]
        simp [List.filter_cons, hdropb]

/-- When no visited open decision exceeds the headroom the closing loop
returns the solution physically unchanged. -/
theorem applyRulesAux_no_close (p : ProblemSubsetSum) (H : Nat) :
    ∀ (bits : List Nat) (sol : MinimalSolution) (acc : Nat),
    (∀ b ∈ bits, (sol.get_decision b).isNone = true → ¬ H < p.w b) →
    (p.applyRulesAuxI H bits (sol, acc)).1 = sol := by
  intro bits
  induction bits with
  | nil => intro sol acc _; rfl
  | cons b rest ih =>
    intro sol acc hok
    simp only [ProblemSubsetSum.applyRulesAuxI]
    by_cases hopen : (sol.get_decision b).isNone
    · rw [if_pos hopen, if_neg (hok b (by simp) hopen)]
      exact ih sol (acc + p.w b) (fun b2 hb2 h2 => hok b2 (by simp [hb2]) h2)
    · rw [if_neg hopen]
      exact ih sol acc (fun b2 hb2 h2 => hok b2 (by simp [hb2]) h2)

/-- Characterization of `apply_rulesI`: scalar bookkeeping, the stored
score, the per-decision effect (an open decision too heavy for the
headroom is closed as false, everything else is untouched), and the
stored best score (the capped optimistic weight). -/
theorem apply_rules_main (p : ProblemSubsetSum) (s : MinimalSolution)
    (hm8 : p.problem_size ≤ 8 * s.mask.length)
    (hd8 : p.problem_size ≤ 8 * s.decisions.length) :
    ((p.apply_rulesI s).size = s.size ∧
     (p.apply_rulesI s).priority = s.priority ∧
     (p.apply_rulesI s).mask.length = s.mask.length ∧
     (p.apply_rulesI s).decisions.length = s.decisions.length) ∧
    (p.apply_rulesI s).score = p.solution_scoreI s ∧
    (∀ j, (p.apply_rulesI s).get_decision j =
      if j < p.problem_size ∧ (s.get_decision j).isNone ∧
          (p.capacity - p.solution_scoreI s) < p.w j
        then some false else s.get_decision j) ∧
    (p.apply_rulesI s).best_score =
      (if p.capacity <
          p.solution_scoreI s +
            (((List.range p.problem_size).filter
              (fun b => (s.get_decision b).isNone &&
                decide (p.w b ≤ p.capacity - p.solution_scoreI s))).map p.w).sum
        then p.capacity
        else p.solution_scoreI s +
          (((List.range p.problem_size).filter
            (fun b => (s.get_decision b).isNone &&
              decide (p.w b ≤ p.capacity - p.solution_scoreI s))).map p.w).sum) := by
  have hrange : ∀ b ∈ List.range p.problem_size,
      b / 8 < ({ s with score := p.solution_scoreI s } : MinimalSolution).mask.length ∧
        b / 8 < ({ s with score := p.solution_scoreI s } : MinimalSolution).decisions.length := by
    intro b hb
    have hb2 := List.mem_range.mp hb
    constructor
    · show b / 8 < s.mask.length
      omega
    · show b / 8 < s.decisions.length
      omega
  obtain ⟨hfields, hout, hin, hacc⟩ :=
    applyRulesAux_spec p (p.capacity - p.solution_scoreI s) (List.range p.problem_size)
      (List.nodup_range _) { s with score := p.solution_scoreI s } (p.solution_scoreI s) hrange
  simp only [ProblemSubsetSum.apply_rulesI]
  refine ⟨⟨hfields.1, hfields.2.2.2.1, hfields.2.2.2.2.1, hfields.2.2.2.2.2⟩,
    hfields.2.1, ?_, ?_⟩
  · intro j
    rw [get_decision_set_best]
    by_cases hj : j < p.problem_size
    · have hj2 : j ∈ List.range p.problem_size := List.mem_range.mpr hj
      have hthis := hin j hj2
      rw [show (({ s with score := p.solution_scoreI s } : MinimalSolution).get_decision j) =
        s.get_decision j from rfl] at hthis
      rw [hthis]
      by_cases hopen : (s.get_decision j).isNone
      · by_cases hbig : (p.capacity - p.solution_scoreI s) < p.w j
        · rw [if_pos ⟨hopen, hbig⟩, if_pos ⟨hj, hopen, hbig⟩]
        · rw [if_neg (fun hc => hbig hc.2), if_neg (fun hc => hbig hc.2.2)]
      · rw [if_neg (fun hc => hopen hc.1), if_neg (fun hc => hopen hc.2.1)]
    · have hj2 : j ∉ List.range p.problem_size := fun hc => hj (List.mem_range.mp hc)
      rw [hout j hj2]
      rw [show (({ s with score := p.solution_scoreI s } : MinimalSolution).get_decision j) =
        s.get_decision j from rfl]
      rw [if_neg (fun hc => hj hc.1)]
  · rw [hacc]
    rfl

/-- The sum `solution_scoreI` is invariant under `apply_rulesI`: the loop closes
decisions only as false, which contributes nothing to the score. -/
theorem apply_rules_solution_score (p : ProblemSubsetSum) (s : MinimalSolution)
    (hm8 : p.problem_size ≤ 8 * s.mask.length)
    (hd8 : p.problem_size ≤ 8 * s.decisions.length) :
    p.solution_scoreI (p.apply_rulesI s) = p.solution_scoreI s := by
  obtain ⟨_, _, hgd, _⟩ := apply_rules_main p s hm8 hd8
  unfold ProblemSubsetSum.solution_scoreI
  congr 1
  apply List.map_congr_left
  intro j _
  rw [hgd j]
  by_cases hc : j < p.problem_size ∧ (s.get_decision j).isNone ∧
      (p.capacity - p.solution_scoreI s) < p.w j
  · rw [if_pos hc]
    have : s.get_decision j = none := Option.isNone_iff_eq_none.mp hc.2.1
    rw [this]
  · rw [if_neg hc]

/-- Decisions already made survive `apply_rulesI` unchanged. -/
theorem apply_rules_preserves_some (p : ProblemSubsetSum) (s : MinimalSolution)
    (hm8 : p.problem_size ≤ 8 * s.mask.length)
    (hd8 : p.problem_size ≤ 8 * s.decisions.length)
    (j : Nat) (v : Bool) (h : s.get_decision j = some v) :
    (p.apply_rulesI s).get_decision j = some v := by
  obtain ⟨_, _, hgd, _⟩ := apply_rules_main p s hm8 hd8
  rw [hgd j, if_neg (fun hc => by rw [h] at hc; simp at hc), h]

/-- After `apply_rulesI`, an index is open exactly when it was open
before and its weight fits the headroom. -/
theorem apply_rules_open_iff (p : ProblemSubsetSum) (s : MinimalSolution)
    (hm8 : p.problem_size ≤ 8 * s.mask.length)
    (hd8 : p.problem_size ≤ 8 * s.decisions.length)
    (j : Nat) (hj : j < p.problem_size) :
    ((p.apply_rulesI s).get_decision j).isNone =
      ((s.get_decision j).isNone && decide (p.w j ≤ p.capacity - p.solution_scoreI s)) := by
  obtain ⟨_, _, hgd, _⟩ := apply_rules_main p s hm8 hd8
  rw [hgd j]
  by_cases hopen : (s.get_decision j).isNone
  · by_cases hbig : (p.capacity - p.solution_scoreI s) < p.w j
    · rw [if_pos ⟨hj, hopen, hbig⟩]
      simp [Nat.not_le.mpr hbig]
    · rw [if_neg (fun hc => hbig hc.2.2)]
      simp [hopen, Nat.not_lt.mp hbig]
  · rw [if_neg (fun hc => hopen hc.2.1)]
    simp at hopen
    simp [hopen]

/-- The optimistic total rebuilt from scratch on the rewritten solution
(the `solution_best_scoreI` summands) equals the score plus the weights
of the surviving open decisions. -/
theorem apply_rules_best_total (p : ProblemSubsetSum) (s : MinimalSolution)
    (hm8 : p.problem_size ≤ 8 * s.mask.length)
    (hd8 : p.problem_size ≤ 8 * s.decisions.length) :
    (((List.range p.problem_size).map (fun j =>
      match (p.apply_rulesI s).get_decision j with
      | some false => 0
      | _ => p.w j)).sum) =
      p.solution_scoreI s +
        (((List.range p.problem_size).filter
          (fun b => (s.get_decision b).isNone &&
            decide (p.w b ≤ p.capacity - p.solution_scoreI s))).map p.w).sum := by
  obtain ⟨_, _, hgd, _⟩ := apply_rules_main p s hm8 hd8
  have hpt : ∀ j ∈ List.range p.problem_size,
      (match (p.apply_rulesI s).get_decision j with
        | some false => 0
        | _ => p.w j) =
        (match s.get_decision j with
          | some true => p.w j
          | _ => 0) +
          (if ((s.get_decision j).isNone &&
              decide (p.w j ≤ p.capacity - p.solution_scoreI s)) then p.w j else 0) := by
    intro j hj
    have hjn := List.mem_range.mp hj
    rw [hgd j]
    cases hsj : s.get_decision j with
    | some v =>
      have hcond : ¬ (j < p.problem_size ∧ (Option.some v).isNone = true ∧
          (p.capacity - p.solution_scoreI s) < p.w j) := by
        rintro ⟨_, h2, _⟩
        simp at h2
      rw [if_neg hcond]
      cases v <;> simp
    | none =>
      by_cases hbig : (p.capacity - p.solution_scoreI s) < p.w j
      · rw [if_pos ⟨hjn, by simp, hbig⟩]
        simp [Nat.not_le.mpr hbig]
      · rw [if_neg (fun hc => hbig hc.2.2)]
        simp [Nat.not_lt.mp hbig]
  rw [List.map_congr_left hpt, sum_map_add, sum_map_ite_filter]
  rfl

/-- After `apply_rulesI`, the audit `rules_audit_passedI` holds (the
post-condition of the implicit-decision engine): legality is preserved,
score and best score re-derived from scratch match the stored fields,
and no surviving open decision exceeds the headroom. -/
theorem apply_rules_audit_passed (p : ProblemSubsetSum) (s : MinimalSolution)
    (hsl : p.solution_is_legalI s = true)
    (hm8 : p.problem_size ≤ 8 * s.mask.length)
    (hd8 : p.problem_size ≤ 8 * s.decisions.length) :
    p.rules_audit_passedI (p.apply_rulesI s) = true := by
  obtain ⟨hstruct, hscore, hgd, hbest⟩ := apply_rules_main p s hm8 hd8
  have hsc := apply_rules_solution_score p s hm8 hd8
  have hslcap : p.solution_scoreI s ≤ p.capacity := by
    simpa [ProblemSubsetSum.solution_is_legalI] using hsl
  have hopenfit : ∀ b ∈ List.range p.problem_size,
      (((p.apply_rulesI s).get_decision b).isNone = true) →
        p.w b ≤ p.capacity - p.solution_scoreI (p.apply_rulesI s) := by
    intro b hb hopen
    rw [hsc]
    rw [apply_rules_open_iff p s hm8 hd8 b (List.mem_range.mp hb)] at hopen
    rw [Bool.and_eq_true] at hopen
    exact of_decide_eq_true hopen.2
  have haudit := auditAux_spec p (p.apply_rulesI s)
    (p.capacity - p.solution_scoreI (p.apply_rulesI s)) (List.range p.problem_size)
    (p.solution_scoreI (p.apply_rulesI s)) hopenfit
  have hfil : (List.range p.problem_size).filter
      (fun b => ((p.apply_rulesI s).get_decision b).isNone) =
      (List.range p.problem_size).filter
        (fun b => (s.get_decision b).isNone &&
          decide (p.w b ≤ p.capacity - p.solution_scoreI s)) := by
    apply List.filter_congr
    intro b hb
    exact apply_rules_open_iff p s hm8 hd8 b (List.mem_range.mp hb)
  have hbss : p.solution_best_scoreI (p.apply_rulesI s) = (p.apply_rulesI s).best_score := by
    unfold ProblemSubsetSum.solution_best_scoreI
    rw [bestScoreAux_eq p (p.apply_rulesI s) (List.range p.problem_size) 0 (by omega)]
    simp only [Nat.zero_add]
    rw [apply_rules_best_total p s hm8 hd8, hbest]
  have h1 : p.solution_is_legalI (p.apply_rulesI s) = true := by
    simp [ProblemSubsetSum.solution_is_legalI, hsc, hslcap]
  simp only [ProblemSubsetSum.rules_audit_passedI, haudit]
  rw [h1, hfil, hsc]
  simp only [hscore, hsc, hbss, hbest, decide_eq_true_eq]
  simp

/-- Applying the rules twice changes nothing after the first
application: the second pass recomputes the same score, finds no open
decision over the headroom, and stores the same best score. -/
theorem apply_rules_idem (p : ProblemSubsetSum) (s : MinimalSolution)
    (hm8 : p.problem_size ≤ 8 * s.mask.length)
    (hd8 : p.problem_size ≤ 8 * s.decisions.length) :
    p.apply_rulesI (p.apply_rulesI s) = p.apply_rulesI s := by
  obtain ⟨hstruct, hscore, hgd, hbest⟩ := apply_rules_main p s hm8 hd8
  have hsc := apply_rules_solution_score p s hm8 hd8
  set r := p.apply_rulesI s with hr
  have hscr : p.solution_scoreI r = r.score := by rw [hsc, hscore]
  have hm8r : p.problem_size ≤ 8 * r.mask.length := by rw [hstruct.2.2.1]; exact hm8
  have hd8r : p.problem_size ≤ 8 * r.decisions.length := by rw [hstruct.2.2.2]; exact hd8
  have hrec : ({ r with score := p.solution_scoreI r } : MinimalSolution) = r := by
    rw [hscr]
  have hnc : ∀ b ∈ List.range p.problem_size, ((r.get_decision b).isNone = true) →
      ¬ (p.capacity - p.solution_scoreI r) < p.w b := by
    intro b hb hopen
    rw [hsc]
    rw [apply_rules_open_iff p s hm8 hd8 b (List.mem_range.mp hb)] at hopen
    rw [Bool.and_eq_true] at hopen
    have := of_decide_eq_true hopen.2
    omega
  have hrangeR : ∀ b ∈ List.range p.problem_size,
      b / 8 < r.mask.length ∧ b / 8 < r.decisions.length := by
    intro b hb
    have := List.mem_range.mp hb
    constructor <;> omega
  simp only [ProblemSubsetSum.apply_rulesI]
  rw [hrec]
  have hfix := applyRulesAux_no_close p (p.capacity - p.solution_scoreI r)
    (List.range p.problem_size) r (p.solution_scoreI r) hnc
  obtain ⟨_, _, _, hacc2⟩ := applyRulesAux_spec p (p.capacity - p.solution_scoreI r)
    (List.range p.problem_size) (List.nodup_range _) r (p.solution_scoreI r) hrangeR
  rw [hfix, hacc2]
  have hfil2 : (List.range p.problem_size).filter
      (fun b => (r.get_decision b).isNone &&
        decide (p.w b ≤ p.capacity - p.solution_scoreI r)) =
      (List.range p.problem_size).filter
        (fun b => (s.get_decision b).isNone &&
          decide (p.w b ≤ p.capacity - p.solution_scoreI s)) := by
    apply List.filter_congr
    intro b hb
    rw [hsc, apply_rules_open_iff p s hm8 hd8 b (List.mem_range.mp hb)]
    rw [Bool.and_assoc, Bool.and_self]
  rw [hfil2, hsc, ← hbest]

/-- Reading any bit of an all-ones buffer yields true (in range). -/
theorem get_bit_replicate_ff (len j : Nat) (h : j / 8 < len) :
    Util.get_bit (List.replicate len 0xFF) j = true := by
  rw [util_get_bit_eq_testBit]
  have hget : (List.replicate len (0xFF : Nat)).getD (j / 8) 0 = 0xFF := by
    rw [List.getD_eq_getElem _ 0 (by simpa using h)]
    simp
  rw [hget]
  have h255 : (0xFF : Nat) = 2 ^ 8 - 1 := by norm_num
  rw [h255, Nat.testBit_two_pow_sub_one]
  simp [Nat.mod_lt j (show 0 < 8 by norm_num)]

/-- Reading any bit of an all-zero buffer yields false. -/
theorem get_bit_replicate_zero (len j : Nat) :
    Util.get_bit (List.replicate len 0) j = false := by
  rw [util_get_bit_eq_testBit]
  have hget : (List.replicate len (0 : Nat)).getD (j / 8) 0 = 0 := by
    rcases Nat.lt_or_ge (j / 8) len with h | h
    · rw [List.getD_eq_getElem _ 0 (by simpa using h)]
      simp
    · rw [List.getD_eq_default _ 0 (by simpa using h)]
  rw [hget]
  simp

/-- A successful `first_open_decision` points at an in-range open
decision. -/
theorem first_open_some (p : ProblemSubsetSum) (s : MinimalSolution) (i : Nat)
    (h : p.first_open_decision s = some i) :
    i < p.problem_size ∧ (s.get_decision i).isNone = true := by
  unfold ProblemSubsetSum.first_open_decision at h
  refine ⟨List.mem_range.mp (List.mem_of_find?_eq_some h), ?_⟩
  simpa using List.find?_some h

/-- What a passed audit guarantees: feasibility, a stored score equal
to the recomputed one, and headroom for every open decision. -/
theorem audit_passed_facts (p : ProblemSubsetSum) (s : MinimalSolution)
    (h : p.rules_audit_passedI s = true) :
    p.solution_scoreI s ≤ p.capacity ∧ s.score = p.solution_scoreI s ∧
      (∀ b, b < p.problem_size → (s.get_decision b).isNone = true →
        p.w b ≤ p.capacity - p.solution_scoreI s) := by
  unfold ProblemSubsetSum.rules_audit_passedI at h
  simp only [Bool.and_eq_true, decide_eq_true_eq] at h
  obtain ⟨⟨⟨hleg, hscoreq⟩, _⟩, hmatch⟩ := h
  have hleg2 : p.solution_scoreI s ≤ p.capacity := by
    simpa [ProblemSubsetSum.solution_is_legalI] using hleg
  refine ⟨hleg2, hscoreq, ?_⟩
  intro b hb hopen
  cases haud : p.auditAuxI s (p.capacity - p.solution_scoreI s) (List.range p.problem_size)
      (p.solution_scoreI s) with
  | none => rw [haud] at hmatch; simp at hmatch
  | some wfin =>
    exact auditAux_some_bound p s (p.capacity - p.solution_scoreI s)
      (List.range p.problem_size) _ _ haud b (List.mem_range.mpr hb) hopen

/-- The method `apply_rulesI` keeps a complete solution complete (it only ever
closes decisions). -/
theorem apply_rules_complete (p : ProblemSubsetSum) (s : MinimalSolution)
    (hm8 : p.problem_size ≤ 8 * s.mask.length)
    (hd8 : p.problem_size ≤ 8 * s.decisions.length)
    (hcomp : p.solution_is_complete s = true) :
    p.solution_is_complete (p.apply_rulesI s) = true := by
  obtain ⟨_, _, hgd, _⟩ := apply_rules_main p s hm8 hd8
  unfold ProblemSubsetSum.solution_is_complete ProblemSubsetSum.first_open_decision at *
  rw [Option.isNone_iff_eq_none, List.find?_eq_none] at hcomp ⊢
  intro j hj
  have := hcomp j hj
  rw [hgd j]
  by_cases hcnd : j < p.problem_size ∧ (s.get_decision j).isNone = true ∧
      p.capacity - p.solution_scoreI s < p.w j
  · rw [hcnd.2.1] at this
    simp at this
  · rw [if_neg hcnd]
    exact this

/-- The helper `popAt` returns an element of the container and a remainder drawn
from the container. -/
theorem popAt_mem (l : List MinimalSolution) (k : Nat) (x : MinimalSolution)
    (rest : List MinimalSolution) (h : popAt l k = some (x, rest)) :
    x ∈ l ∧ ∀ y ∈ rest, y ∈ l := by
  cases l with
  | nil => simp [popAt] at h
  | cons a t =>
    simp only [popAt, Option.some.injEq, Prod.mk.injEq] at h
    obtain ⟨hx, hrest⟩ := h
    constructor
    · rw [← hx]
      have hlt : k % (a :: t).length < (a :: t).length :=
        Nat.mod_lt _ (by simp)
      rw [List.getD_eq_getElem _ a hlt]
      exact List.getElem_mem hlt
    · intro y hy
      rw [← hrest] at hy
      exact (List.eraseIdx_sublist (a :: t) (k % (a :: t).length)).mem hy

/-- Children of an audited parent: both children returned by
`children_of_solutionI` keep the parent's size and buffer lengths and
pass the rules audit (the decisive step: the audited parent's first
open decision fits the headroom, so the true child is still feasible
when `apply_rulesI` runs on it). -/
theorem children_of_solution_props (p : ProblemSubsetSum) (s : MinimalSolution)
    (haud : p.rules_audit_passedI s = true)
    (hm8 : p.problem_size ≤ 8 * s.mask.length)
    (hd8 : p.problem_size ≤ 8 * s.decisions.length) :
    ∀ c ∈ p.children_of_solutionI s,
      (c.size = s.size ∧ c.mask.length = s.mask.length ∧
        c.decisions.length = s.decisions.length) ∧
      p.rules_audit_passedI c = true := by
  intro c hc
  unfold ProblemSubsetSum.children_of_solutionI at hc
  cases hfo : p.first_open_decision s with
  | none => rw [hfo] at hc; simp at hc
  | some i =>
    rw [hfo] at hc
    obtain ⟨hi, hopen⟩ := first_open_some p s i hfo
    obtain ⟨hleg, _, hfit⟩ := audit_passed_facts p s haud
    have him : i / 8 < s.mask.length := by omega
    have hid : i / 8 < s.decisions.length := by omega
    have hwfit := hfit i hi hopen
    have hchild : ∀ v : Bool,
        ((p.apply_rulesI (s.make_decision i v)).size = s.size ∧
          (p.apply_rulesI (s.make_decision i v)).mask.length = s.mask.length ∧
          (p.apply_rulesI (s.make_decision i v)).decisions.length = s.decisions.length) ∧
        p.rules_audit_passedI (p.apply_rulesI (s.make_decision i v)) = true := by
      intro v
      have hlen := make_decision_lengths s i v
      have hfl := make_decision_fields s i v
      have hm8c : p.problem_size ≤ 8 * (s.make_decision i v).mask.length := by
        rw [hlen.1]; exact hm8
      have hd8c : p.problem_size ≤ 8 * (s.make_decision i v).decisions.length := by
        rw [hlen.2]; exact hd8
      have hlegc : p.solution_is_legalI (s.make_decision i v) = true := by
        unfold ProblemSubsetSum.solution_is_legalI
        cases v with
        | false =>
          rw [solution_score_make_false p s i him hid
            (by rw [Option.isNone_iff_eq_none.mp hopen]; simp)]
          simp [hleg]
        | true =>
          rw [solution_score_make_true p s i hi him hid (Option.isNone_iff_eq_none.mp hopen)]
          simp
          omega
      obtain ⟨hst, _, _, _⟩ := apply_rules_main p (s.make_decision i v) hm8c hd8c
      exact ⟨⟨hst.1.trans hfl.1, hst.2.2.1.trans hlen.1, hst.2.2.2.trans hlen.2⟩,
        apply_rules_audit_passed p (s.make_decision i v) hlegc hm8c hd8c⟩
    simp only [List.mem_cons, List.mem_singleton, List.not_mem_nil, or_false] at hc
    rcases hc with rfl | rfl
    · exact hchild true
    · exact hchild false

/-- Full description of the repair loop of `random_solutionI`: the
tracked weight stays in sync with the recomputed score, the loop either
breaks below the capacity or flips every visited selected item, true
decisions never appear, false decisions and decidedness persist, and
size and buffer lengths are preserved. -/
theorem randLegalAux_spec (p : ProblemSubsetSum) :
    ∀ (bits : List Nat) (sol : MinimalSolution) (weight : Nat),
    (∀ b ∈ bits, b < p.problem_size) →
    p.problem_size ≤ 8 * sol.mask.length →
    p.problem_size ≤ 8 * sol.decisions.length →
    weight = p.solution_scoreI sol →
    ((p.randLegalAuxI bits (sol, weight)).2 =
        p.solution_scoreI (p.randLegalAuxI bits (sol, weight)).1) ∧
    ((p.randLegalAuxI bits (sol, weight)).2 < p.capacity ∨
      ∀ b ∈ bits, (p.randLegalAuxI bits (sol, weight)).1.get_decision b ≠ some true) ∧
    (∀ j, (p.randLegalAuxI bits (sol, weight)).1.get_decision j = some true →
      sol.get_decision j = some true) ∧
    (∀ j, sol.get_decision j = some false →
      (p.randLegalAuxI bits (sol, weight)).1.get_decision j = some false) ∧
    (∀ j v, sol.get_decision j = some v →
      ∃ v2, (p.randLegalAuxI bits (sol, weight)).1.get_decision j = some v2) ∧
    ((p.randLegalAuxI bits (sol, weight)).1.mask.length = sol.mask.length ∧
      (p.randLegalAuxI bits (sol, weight)).1.decisions.length = sol.decisions.length ∧
      (p.randLegalAuxI bits (sol, weight)).1.size = sol.size) := by
  intro bits
  induction bits with
  | nil =>
    intro sol weight _ _ _ hw
    exact ⟨hw, Or.inr (fun b hb => absurd hb (by simp)), fun j h => h,
      fun j h => h, fun j v h => ⟨v, h⟩, rfl, rfl, rfl⟩
  | cons i rest ih =>
    intro sol weight hbits hm8 hd8 hw
    have hi : i < p.problem_size := hbits i (by simp)
    have him : i / 8 < sol.mask.length := by omega
    have hid : i / 8 < sol.decisions.length := by omega
    simp only [ProblemSubsetSum.randLegalAuxI]
    cases hgd : sol.get_decision i with
    | some v =>
      cases v with
      | true =>
        have hlen := make_decision_lengths sol i false
        have hscore2 : weight - p.w i = p.solution_scoreI (sol.make_decision i false) := by
          have := solution_score_unmake_true p sol i hi him hid hgd
          omega
        have hgd2 : ∀ j, j ≠ i →
            (sol.make_decision i false).get_decision j = sol.get_decision j := by
          intro j hj
          rw [get_decision_make_decision sol i false j him hid]
          simp [hj]
        have hgd2i : (sol.make_decision i false).get_decision i = some false := by
          rw [get_decision_make_decision sol i false i him hid]
          simp
        by_cases hbrk : weight - p.w i < p.capacity
        · rw [if_pos hbrk]
          refine ⟨hscore2, Or.inl hbrk, ?_, ?_, ?_, hlen.1, hlen.2,
            (make_decision_fields sol i false).1⟩
          · intro j hj
            rcases eq_or_ne j i with rfl | hji
            · rw [hgd2i] at hj; simp at hj
            · rw [hgd2 j hji] at hj; exact hj
          · intro j hj
            rcases eq_or_ne j i with rfl | hji
            · exact hgd2i
            · rw [hgd2 j hji]; exact hj
          · intro j v hj
            rcases eq_or_ne j i with rfl | hji
            · exact ⟨false, hgd2i⟩
            · exact ⟨v, by rw [hgd2 j hji]; exact hj⟩
        · rw [if_neg hbrk]
          have hm8b : p.problem_size ≤ 8 * (sol.make_decision i false).mask.length := by
            rw [hlen.1]; exact hm8
          have hd8b : p.problem_size ≤ 8 * (sol.make_decision i false).decisions.length := by
            rw [hlen.2]; exact hd8
          obtain ⟨h1, h2, h3, h4, h5, h6⟩ := ih (sol.make_decision i false) (weight - p.w i)
            (fun b hb => hbits b (by simp [hb])) hm8b hd8b hscore2
          refine ⟨h1, ?_, ?_, ?_, ?_, h6.1.trans hlen.1, h6.2.1.trans hlen.2,
            h6.2.2.trans (make_decision_fields sol i false).1⟩
          · rcases h2 with h2 | h2
            · exact Or.inl h2
            · refine Or.inr ?_
              intro b hb
              rcases List.mem_cons.mp hb with rfl | hbr
              · intro hc
                have := h3 b hc
                rw [hgd2i] at this
                simp at this
              · exact h2 b hbr
          · intro j hj
            have := h3 j hj
            rcases eq_or_ne j i with rfl | hji
            · rw [hgd2i] at this; simp at this
            · rw [hgd2 j hji] at this; exact this
          · intro j hj
            rcases eq_or_ne j i with rfl | hji
            · exact h4 _ hgd2i
            · exact h4 j (by rw [hgd2 j hji]; exact hj)
          · intro j v hj
            rcases eq_or_ne j i with rfl | hji
            · obtain ⟨v2, hv2⟩ := h5 _ false hgd2i
              exact ⟨v2, hv2⟩
            · exact h5 j v (by rw [hgd2 j hji]; exact hj)
      | false =>
        obtain ⟨h1, h2, h3, h4, h5, h6⟩ := ih sol weight
          (fun b hb => hbits b (by simp [hb])) hm8 hd8 hw
        refine ⟨h1, ?_, h3, h4, h5, h6⟩
        rcases h2 with h2 | h2
        · exact Or.inl h2
        · refine Or.inr ?_
          intro b hb
          rcases List.mem_cons.mp hb with rfl | hbr
          · intro hc
            have := h3 b hc
            rw [hgd] at this
            simp at this
          · exact h2 b hbr
    | none =>
      obtain ⟨h1, h2, h3, h4, h5, h6⟩ := ih sol weight
        (fun b hb => hbits b (by simp [hb])) hm8 hd8 hw
      refine ⟨h1, ?_, h3, h4, h5, h6⟩
      rcases h2 with h2 | h2
      · exact Or.inl h2
      · refine Or.inr ?_
        intro b hb
        rcases List.mem_cons.mp hb with rfl | hbr
        · intro hc
          have := h3 b hc
          rw [hgd] at this
          simp at this
        · exact h2 b hbr

/-- A solution with a decision recorded at every problem index is
complete. -/
theorem complete_of_all_some (p : ProblemSubsetSum) (s : MinimalSolution)
    (h : ∀ j, j < p.problem_size → ∃ v, s.get_decision j = some v) :
    p.solution_is_complete s = true := by
  unfold ProblemSubsetSum.solution_is_complete ProblemSubsetSum.first_open_decision
  rw [Option.isNone_iff_eq_none, List.find?_eq_none]
  intro j hj
  obtain ⟨v, hv⟩ := h j (List.mem_range.mp hj)
  simp [hv]

/-- The randomized base solution of `random_solutionI`: declared size,
allocated byte lengths, and a decision present at every index (the mask
is all ones). -/
theorem random_base_props (n : Nat) (r : List Nat) (rs rb : Nat) :
    (MinimalSolution.random n r rs rb).size = n ∧
    (MinimalSolution.random n r rs rb).mask.length = (n + 7) / 8 ∧
    (MinimalSolution.random n r rs rb).decisions.length = (n + 7) / 8 ∧
    ∀ j, j < n → ∃ v, (MinimalSolution.random n r rs rb).get_decision j = some v := by
  have hmask : (MinimalSolution.random n r rs rb).mask =
      List.replicate ((n + 7) / 8) 0xFF := by
    simp [MinimalSolution.random, MinimalSolution.randomize, MinimalSolution.new]
  refine ⟨rfl, by rw [hmask]; simp, ?_, ?_⟩
  · simp [MinimalSolution.random, MinimalSolution.randomize, MinimalSolution.new]
  · intro j hj
    have hbit : Util.get_bit (MinimalSolution.random n r rs rb).mask j = true := by
      rw [hmask]
      exact get_bit_replicate_ff _ j (by omega)
    refine ⟨Util.get_bit (MinimalSolution.random n r rs rb).decisions j, ?_⟩
    unfold MinimalSolution.get_decision
    rw [hbit]
    simp

/-- The method `random_solutionI` delivers what the driver needs for its best
slot: an audited (hence feasible), complete, well-formed solution --
whatever the random draws were. -/
theorem random_solution_props (p : ProblemSubsetSum) (r : List Nat) (rs rb : Nat) :
    p.rules_audit_passedI (p.random_solutionI r rs rb) = true ∧
    p.solution_is_complete (p.random_solutionI r rs rb) = true ∧
    (p.random_solutionI r rs rb).size = p.problem_size ∧
    (p.random_solutionI r rs rb).mask.length = (p.problem_size + 7) / 8 ∧
    (p.random_solutionI r rs rb).decisions.length = (p.problem_size + 7) / 8 := by
  obtain ⟨hsz0, hm0, hd0, hall0⟩ := random_base_props p.problem_size r rs rb
  have hm80 : p.problem_size ≤ 8 * (MinimalSolution.random p.problem_size r rs rb).mask.length := by
    rw [hm0]; omega
  have hd80 : p.problem_size ≤
      8 * (MinimalSolution.random p.problem_size r rs rb).decisions.length := by
    rw [hd0]; omega
  simp only [ProblemSubsetSum.random_solutionI]
  set base := MinimalSolution.random p.problem_size r rs rb with hbase
  by_cases hleg : p.solution_is_legalI base = true
  · rw [if_neg (by simp [hleg])]
    obtain ⟨hst, _, _, _⟩ := apply_rules_main p base hm80 hd80
    refine ⟨apply_rules_audit_passed p base hleg hm80 hd80, ?_, ?_, ?_, ?_⟩
    · exact apply_rules_complete p base hm80 hd80 (complete_of_all_some p base hall0)
    · rw [hst.1, hsz0]
    · rw [hst.2.2.1, hm0]
    · rw [hst.2.2.2, hd0]
  · rw [if_pos (by simpa using hleg)]
    obtain ⟨h1, h2, h3, h4, h5, h6⟩ := randLegalAux_spec p (List.range p.problem_size)
      base (p.solution_scoreI base) (fun b hb => List.mem_range.mp hb) hm80 hd80 rfl
    set rep := (p.randLegalAuxI (List.range p.problem_size)
      (base, p.solution_scoreI base)).1 with hrep
    have hrleg : p.solution_is_legalI rep = true := by
      unfold ProblemSubsetSum.solution_is_legalI
      rcases h2 with h2 | h2
      · simp only [decide_eq_true_eq]
        omega
      · have hscore0 : p.solution_scoreI rep = 0 := by
          unfold ProblemSubsetSum.solution_scoreI
          apply List.sum_eq_zero
          intro x hx
          obtain ⟨j, hj, rfl⟩ := List.mem_map.mp hx
          have hne := h2 j hj
          cases hgd : rep.get_decision j with
          | none => rfl
          | some v =>
            cases v with
            | false => rfl
            | true => exact absurd hgd hne
        simp [hscore0]
    have hm8r : p.problem_size ≤ 8 * rep.mask.length := by
      rw [h6.1]; exact hm80
    have hd8r : p.problem_size ≤ 8 * rep.decisions.length := by
      rw [h6.2.1]; exact hd80
    have hcompr : p.solution_is_complete rep = true := by
      apply complete_of_all_some
      intro j hj
      obtain ⟨v, hv⟩ := hall0 j hj
      exact h5 j v hv
    obtain ⟨hst, _, _, _⟩ := apply_rules_main p rep hm8r hd8r
    refine ⟨apply_rules_audit_passed p rep hrleg hm8r hd8r, ?_, ?_, ?_, ?_⟩
    · exact apply_rules_complete p rep hm8r hd8r hcompr
    · rw [hst.1, h6.2.2, hsz0]
    · rw [hst.2.2.1, h6.1, hm0]
    · rw [hst.2.2.2, h6.2.1, hd0]

/-- The method `starting_solutionI` is audited and well-formed (it is the all-open
solution, whose score is 0, run through `apply_rulesI`). -/
theorem starting_solution_props (p : ProblemSubsetSum) :
    p.rules_audit_passedI p.starting_solutionI = true ∧
    p.starting_solutionI.size = p.problem_size ∧
    p.starting_solutionI.mask.length = (p.problem_size + 7) / 8 ∧
    p.starting_solutionI.decisions.length = (p.problem_size + 7) / 8 := by
  have hnew : ∀ j, (MinimalSolution.new p.problem_size).get_decision j = none := by
    intro j
    unfold MinimalSolution.get_decision MinimalSolution.new
    simp [get_bit_replicate_zero]
  have hfix : ∀ j, (p.fix_scoresI (MinimalSolution.new p.problem_size)).get_decision j =
      none := fun j => hnew j
  have hscore0 : p.solution_scoreI (p.fix_scoresI (MinimalSolution.new p.problem_size)) = 0 := by
    unfold ProblemSubsetSum.solution_scoreI
    apply List.sum_eq_zero
    intro x hx
    obtain ⟨j, _, rfl⟩ := List.mem_map.mp hx
    rw [hfix j]
  have hleg : p.solution_is_legalI (p.fix_scoresI (MinimalSolution.new p.problem_size)) = true := by
    unfold ProblemSubsetSum.solution_is_legalI
    simp [hscore0]
  have hmlen : (p.fix_scoresI (MinimalSolution.new p.problem_size)).mask.length =
      (p.problem_size + 7) / 8 := by
    simp [ProblemSubsetSum.fix_scoresI, MinimalSolution.new]
  have hdlen : (p.fix_scoresI (MinimalSolution.new p.problem_size)).decisions.length =
      (p.problem_size + 7) / 8 := by
    simp [ProblemSubsetSum.fix_scoresI, MinimalSolution.new]
  have hm8 : p.problem_size ≤
      8 * (p.fix_scoresI (MinimalSolution.new p.problem_size)).mask.length := by
    rw [hmlen]; omega
  have hd8 : p.problem_size ≤
      8 * (p.fix_scoresI (MinimalSolution.new p.problem_size)).decisions.length := by
    rw [hdlen]; omega
  obtain ⟨hst, _, _, _⟩ := apply_rules_main p _ hm8 hd8
  exact ⟨apply_rules_audit_passed p _ hleg hm8 hd8,
    hst.1, hst.2.2.1.trans hmlen, hst.2.2.2.trans hdlen⟩

/-- Unfolding of the boolean `solWF` into its three equalities. -/
theorem solWF_iff (p : ProblemSubsetSum) (s : MinimalSolution) :
    solWF p s = true ↔
      s.size = p.problem_size ∧ s.mask.length = (p.problem_size + 7) / 8 ∧
        s.decisions.length = (p.problem_size + 7) / 8 := by
  simp [solWF, Bool.and_eq_true, and_assoc]

/-- A well-formed solution satisfies the byte-length bounds needed by
the decision accessors. -/
theorem solWF_bounds (p : ProblemSubsetSum) (s : MinimalSolution)
    (h : solWF p s = true) :
    p.problem_size ≤ 8 * s.mask.length ∧ p.problem_size ≤ 8 * s.decisions.length := by
  obtain ⟨_, hm, hd⟩ := (solWF_iff p s).mp h
  omega

/-- The two children of a solution satisfying the loop invariant
satisfy it too. -/
theorem children_solOK (p : ProblemSubsetSum) (s : MinimalSolution) (h : solOKI p s) :
    ∀ c ∈ p.children_of_solutionI s, solOKI p c := by
  obtain ⟨hwf, haud⟩ := h
  obtain ⟨hm8, hd8⟩ := solWF_bounds p s hwf
  obtain ⟨hsz, hml, hdl⟩ := (solWF_iff p s).mp hwf
  intro c hc
  obtain ⟨⟨hcs, hcm, hcd⟩, hcaud⟩ := children_of_solution_props p s haud hm8 hd8 c hc
  exact ⟨(solWF_iff p c).mpr ⟨hcs.trans hsz, hcm.trans hml, hcd.trans hdl⟩, hcaud⟩

/-- The step `processChild` preserves the driver invariant when fed an
invariant child. -/
theorem processChild_inv (p : ProblemSubsetSum) (st : DriverState) (c : MinimalSolution)
    (hcont : ∀ x ∈ st.container, solOKI p x) (hbest : bestOKI p st.best)
    (hc : solOKI p c) :
    (∀ x ∈ (processChild p st c).container, solOKI p x) ∧
      bestOKI p (processChild p st c).best := by
  unfold processChild
  by_cases hcomp : p.solution_is_complete c = true
  · rw [if_neg (by simp [hcomp])]
    by_cases hbet : p.better_than c st.best = true
    · rw [if_pos hbet]
      exact ⟨hcont, hc, hcomp⟩
    · rw [if_neg hbet]
      exact ⟨hcont, hbest⟩
  · rw [if_pos (by simp [hcomp])]
    by_cases hcan : p.can_be_better_than c st.best = true
    · rw [if_pos hcan]
      refine ⟨?_, hbest⟩
      intro x hx
      rcases List.mem_append.mp hx with hx2 | hx2
      · exact hcont x hx2
      · rw [List.mem_singleton.mp hx2]
        exact hc
    · rw [if_neg hcan]
      exact ⟨hcont, hbest⟩

/-- Folding `processChild` over an invariant child list preserves the
driver invariant. -/
theorem foldl_processChild_inv (p : ProblemSubsetSum) :
    ∀ (cs : List MinimalSolution) (st : DriverState),
    (∀ c ∈ cs, solOKI p c) →
    (∀ x ∈ st.container, solOKI p x) → bestOKI p st.best →
    (∀ x ∈ (cs.foldl (processChild p) st).container, solOKI p x) ∧
      bestOKI p (cs.foldl (processChild p) st).best := by
  intro cs
  induction cs with
  | nil => intro st _ hcont hbest; exact ⟨hcont, hbest⟩
  | cons c t ih =>
    intro st hcs hcont hbest
    rw [List.foldl_cons]
    obtain ⟨hcont2, hbest2⟩ := processChild_inv p st c hcont hbest (hcs c (by simp))
    exact ih _ (fun x hx => hcs x (by simp [hx])) hcont2 hbest2

/-- One driver-loop body preserves the invariant: completed solutions
may move into the best slot, incomplete ones branch into invariant
children. -/
theorem driverBody_inv (p : ProblemSubsetSum) (best : MinimalSolution)
    (rest : List MinimalSolution) (next : MinimalSolution)
    (hrest : ∀ x ∈ rest, solOKI p x) (hbest : bestOKI p best) (hnext : solOKI p next) :
    (∀ x ∈ (driverBodyI p best rest next).container, solOKI p x) ∧
      bestOKI p (driverBodyI p best rest next).best := by
  unfold driverBodyI
  by_cases hcomp : p.solution_is_complete next = true
  · rw [if_pos hcomp]
    by_cases hbet : p.better_than next best = true
    · rw [if_pos hbet]
      exact ⟨hrest, hnext, hcomp⟩
    · rw [if_neg hbet]
      exact ⟨hrest, hbest⟩
  · rw [if_neg hcomp]
    by_cases hcan : p.can_be_better_than next best = true
    · rw [if_pos hcan]
      exact foldl_processChild_inv p (p.children_of_solutionI next)
        { container := rest, best := best } (children_solOK p next hnext) hrest hbest

    · rw [if_neg hcan]
      exact ⟨hrest, hbest⟩

/-- The driver loop maintains the invariant and therefore always ends
with a well-formed, audited, complete solution in the best slot --
whatever the pop policy, the deadline outcomes, and the fuel. -/
theorem driverLoop_bestOK (p : ProblemSubsetSum) (chooser : Nat → Nat)
    (stopper : Nat → Bool) :
    ∀ (fuel n : Nat) (st : DriverState),
    (∀ x ∈ st.container, solOKI p x) → bestOKI p st.best →
    bestOKI p (driverLoopI p chooser stopper fuel n st) := by
  intro fuel
  induction fuel with
  | zero => intro n st _ hb; exact hb
  | succ f ih =>
    intro n st hc hb
    simp only [driverLoopI]
    cases hpop : popAt st.container (chooser n) with
    | none => exact hb
    | some pr =>
      obtain ⟨next, rest⟩ := pr
      obtain ⟨hnmem, hrmem⟩ := popAt_mem _ _ _ _ hpop
      have hnext := hc next hnmem
      have hrest : ∀ x ∈ rest, solOKI p x := fun x hx => hc x (hrmem x hx)
      obtain ⟨hc1, hb1⟩ := driverBody_inv p st.best rest next hrest hb hnext
      show bestOKI p
        (if ((driverBodyI p st.best rest next).container.isEmpty || stopper n) = true
          then (driverBodyI p st.best rest next).best
          else driverLoopI p chooser stopper f (n + 1) (driverBodyI p st.best rest next))
      by_cases hstop : ((driverBodyI p st.best rest next).container.isEmpty || stopper n) = true
      · rw [if_pos hstop]
        exact hb1
      · rw [if_neg hstop]
        exact ih (n + 1) _ hc1 hb1

/-- The best-slot invariant yields the feasibility facts of claim C8:
legality and a stored score within the capacity. -/
theorem bestOK_feasible (p : ProblemSubsetSum) (s : MinimalSolution) (h : bestOKI p s) :
    p.solution_is_legalI s = true ∧ s.score ≤ p.capacity := by
  obtain ⟨⟨_, haud⟩, _⟩ := h
  obtain ⟨hleg, hscore, _⟩ := audit_passed_facts p s haud
  constructor
  · unfold ProblemSubsetSum.solution_is_legalI
    simp [hleg]
  · omega

/-- Bridge between the boolean `InvDriverI` and its propositional
reading. -/
theorem InvDriver_iff (p : ProblemSubsetSum) (st : DriverState) :
    InvDriverI p st = true ↔ (∀ x ∈ st.container, solOKI p x) ∧ bestOKI p st.best := by
  simp only [InvDriverI, Bool.and_eq_true, List.all_eq_true, solOKI, bestOKI]
  tauto

/-- C4 confirmed: for each side, `read_2_priorities` returns
`max_score * 1024` when that side's exact-hit count is zero, and
otherwise `(S_side / W_side) / max_score` plus the hit-imbalance
exploration bonus (`(other_hits - hits) / other_hits` when the side's
hits are the minority, else 0) -- proved for every distance multiplier,
the compiled `powf`-based one included. -/
theorem c4_read_2_priorities_sides (distMul : Nat → Nat → ℚ) (m : MhdMemory)
    (mask query : List Nat) (index : Nat) :
    MhdMemory.read_2_priorities distMul m mask query index =
      (claimPriority distMul m mask query index false,
        claimPriority distMul m mask query index true) := by
  simp only [MhdMemory.read_2_priorities]
  rw [prio_foldl_eq]
  unfold MhdMemory.calculate_priority claimPriority hitsOnSide weightOnSide scoreOnSide
  simp only [MhdMemory.PrioAcc.zero, zero_add, Bool.not_false, Bool.not_true]
  apply Prod.ext
  · rw [Nat.add_sub_cancel_left]
  · rw [Nat.add_sub_cancel]

/-! ## Agreement of the wrapped (`u32`) and the ideal subset-sum
arithmetic

Each lemma below equates a source-named (wrapping) definition with its
ideal-arithmetic `I` variant on the stated no-overflow domain: the
weight sum and the capacity fit in `u32`.  The overflow counterexamples
of claims C7 and C8 live outside that domain. -/

/-- Reading every index of a list through `getD` rebuilds the list. -/
theorem map_getD_range (l : List Nat) :
    (List.range l.length).map (fun i => l.getD i 0) = l := by
  apply List.ext_getElem
  · simp
  · intro i h1 h2
    simp [List.getD, List.getElem?_eq_getElem h2]

/-- The per-index weights over the problem range sum to the weight
vector's sum. -/
theorem weights_sum_eq (p : ProblemSubsetSum) :
    ((List.range p.problem_size).map (fun i => p.w i)).sum = p.weights.sum := by
  show ((List.range p.weights.length).map (fun i => p.weights.getD i 0)).sum = p.weights.sum
  rw [map_getD_range]

/-- Wrapping addition is plain addition below `2 ^ 32`. -/
theorem wadd32_eq (a b : Nat) (h : a + b < 4294967296) : wadd32 a b = a + b :=
  Nat.mod_eq_of_lt h

/-- Wrapping subtraction is plain subtraction when the minuend is a
`u32` value at least as large as the subtrahend. -/
theorem wsub32_eq_sub (a b : Nat) (hba : b ≤ a) (ha : a < 4294967296) :
    wsub32 a b = a - b := by
  unfold wsub32
  rw [Nat.mod_eq_of_lt (lt_of_le_of_lt hba ha)]
  have h2 : a + (4294967296 - b) = (a - b) + 4294967296 := by omega
  rw [h2, Nat.add_mod_right, Nat.mod_eq_of_lt (by omega)]

/-- The unbounded score never exceeds the weight sum. -/
theorem scoreI_le_weights_sum (p : ProblemSubsetSum) (s : MinimalSolution) :
    p.solution_scoreI s ≤ p.weights.sum := by
  unfold ProblemSubsetSum.solution_scoreI
  have h1 : ((List.range p.problem_size).map (fun i =>
      match s.get_decision i with
      | some true => p.w i
      | _ => 0)).sum ≤ ((List.range p.problem_size).map (fun i => p.w i)).sum := by
    apply List.sum_le_sum
    intro j _
    cases hgd : s.get_decision j with
    | none => simp
    | some v => cases v <;> simp
  rw [weights_sum_eq] at h1
  exact h1

/-- A selected item's weight is part of the unbounded score. -/
theorem w_le_scoreI (p : ProblemSubsetSum) (s : MinimalSolution) (i : Nat)
    (hi : i < p.problem_size) (ht : s.get_decision i = some true) :
    p.w i ≤ p.solution_scoreI s := by
  unfold ProblemSubsetSum.solution_scoreI
  have hx : (fun j => match s.get_decision j with
      | some true => p.w j
      | _ => 0) i = p.w i := by simp [ht]
  have hmem := List.mem_map_of_mem (fun j => match s.get_decision j with
      | some true => p.w j
      | _ => 0) (List.mem_range.mpr hi)
  have hle := List.single_le_sum (fun x _ => Nat.zero_le x) _ hmem
  rw [hx] at hle
  exact hle

/-- The unbounded score plus the weights of any subset of the open
decisions stays below the weight sum (a selected item is never open). -/
theorem score_plus_filter_le (p : ProblemSubsetSum) (s : MinimalSolution) (q : Nat → Bool)
    (hq : ∀ b, q b = true → (s.get_decision b).isNone = true) :
    p.solution_scoreI s + (((List.range p.problem_size).filter q).map p.w).sum ≤
      p.weights.sum := by
  unfold ProblemSubsetSum.solution_scoreI
  rw [← sum_map_ite_filter (List.range p.problem_size) q p.w, ← sum_map_add,
    ← weights_sum_eq p]
  apply List.sum_le_sum
  intro j _
  by_cases hqj : q j = true
  · have hopen := Option.isNone_iff_eq_none.mp (hq j hqj)
    simp [hopen, hqj]
  · have hqj2 : q j = false := by revert hqj; cases q j <;> simp
    cases hgd : s.get_decision j with
    | none => simp [hqj2]
    | some v => cases v <;> simp [hqj2]

/-- The score loop agrees with the unbounded sum as long as the total
stays below `2 ^ 32`. -/
theorem scoreFold_agree (p : ProblemSubsetSum) (s : MinimalSolution) :
    ∀ (l : List Nat) (acc : Nat),
    acc + (l.map (fun i => match s.get_decision i with
      | some true => p.w i
      | _ => 0)).sum < 4294967296 →
    l.foldl (fun result index =>
      match s.get_decision index with
      | some true => wadd32 result (p.w index)
      | _ => result) acc =
      acc + (l.map (fun i => match s.get_decision i with
        | some true => p.w i
        | _ => 0)).sum := by
  intro l
  induction l with
  | nil => intro acc _; simp
  | cons i rest ih =>
    intro acc hb
    simp only [List.foldl_cons, List.map_cons, List.sum_cons] at hb ⊢
    cases hgd : s.get_decision i with
    | none =>
      simp only [hgd] at hb ⊢
      rw [ih acc (by omega)]
      omega
    | some v =>
      cases v with
      | false =>
        simp only [hgd] at hb ⊢
        rw [ih acc (by omega)]
        omega
      | true =>
        simp only [hgd] at hb ⊢
        rw [wadd32_eq acc (p.w i) (by omega)]
        rw [ih (acc + p.w i) (by omega)]
        omega

/-- Agreement of `solution_score` with its ideal variant: the wrapping
accumulation never wraps when the weight sum fits in `u32`. -/
theorem solution_score_agree (p : ProblemSubsetSum) (s : MinimalSolution)
    (hb : p.weights.sum < 4294967296) :
    p.solution_score s = p.solution_scoreI s := by
  have h1 := scoreI_le_weights_sum p s
  unfold ProblemSubsetSum.solution_scoreI at h1 ⊢
  unfold ProblemSubsetSum.solution_score
  rw [scoreFold_agree p s (List.range p.problem_size) 0 (by omega)]
  omega

/-- Agreement of `solution_is_legal` with its ideal variant. -/
theorem solution_is_legal_agree (p : ProblemSubsetSum) (s : MinimalSolution)
    (hb : p.weights.sum < 4294967296) :
    p.solution_is_legal s = p.solution_is_legalI s := by
  unfold ProblemSubsetSum.solution_is_legal ProblemSubsetSum.solution_is_legalI
  rw [solution_score_agree p s hb]

/-- Agreement of the `solution_best_score` loop with its ideal variant
when the accumulator cannot reach `2 ^ 32`. -/
theorem bestScoreAux_agree (p : ProblemSubsetSum) (s : MinimalSolution) :
    ∀ (l : List Nat) (acc : Nat),
    acc + (l.map (fun i => p.w i)).sum < 4294967296 →
    p.bestScoreAux s l acc = p.bestScoreAuxI s l acc := by
  intro l
  induction l with
  | nil => intro acc _; rfl
  | cons i rest ih =>
    intro acc hb
    simp only [List.map_cons, List.sum_cons] at hb
    simp only [ProblemSubsetSum.bestScoreAux, ProblemSubsetSum.bestScoreAuxI]
    have hsplitW : (match s.get_decision i with
        | some false => acc
        | _ => wadd32 acc (p.w i)) =
        (if s.get_decision i = some false then acc else wadd32 acc (p.w i)) := by
      cases hgd : s.get_decision i with
      | none => simp
      | some v => cases v <;> simp
    have hsplitI : (match s.get_decision i with
        | some false => acc
        | _ => acc + p.w i) =
        (if s.get_decision i = some false then acc else acc + p.w i) := by
      cases hgd : s.get_decision i with
      | none => simp
      | some v => cases v <;> simp
    rw [hsplitW, hsplitI]
    by_cases hgd : s.get_decision i = some false
    · simp only [if_pos hgd]
      by_cases hcap : p.capacity < acc
      · simp only [if_pos hcap]
      · simp only [if_neg hcap]
        exact ih acc (by omega)
    · simp only [if_neg hgd]
      rw [wadd32_eq acc (p.w i) (by omega)]
      by_cases hcap : p.capacity < acc + p.w i
      · simp only [if_pos hcap]
      · simp only [if_neg hcap]
        exact ih (acc + p.w i) (by omega)

/-- Agreement of `solution_best_score` with its ideal variant. -/
theorem solution_best_score_agree (p : ProblemSubsetSum) (s : MinimalSolution)
    (hb : p.weights.sum < 4294967296) :
    p.solution_best_score s = p.solution_best_scoreI s := by
  unfold ProblemSubsetSum.solution_best_score ProblemSubsetSum.solution_best_scoreI
  apply bestScoreAux_agree
  rw [weights_sum_eq p]
  omega

/-- Agreement of `fix_scores` with its ideal variant. -/
theorem fix_scores_agree (p : ProblemSubsetSum) (s : MinimalSolution)
    (hb : p.weights.sum < 4294967296) :
    p.fix_scores s = p.fix_scoresI s := by
  unfold ProblemSubsetSum.fix_scores ProblemSubsetSum.fix_scoresI
  rw [solution_score_agree p s hb, solution_best_score_agree p s hb]

/-- The ideal closing-loop accumulator only grows. -/
theorem applyRulesAuxI_mono (p : ProblemSubsetSum) (H : Nat) :
    ∀ (bits : List Nat) (sol : MinimalSolution) (acc : Nat),
    acc ≤ (p.applyRulesAuxI H bits (sol, acc)).2 := by
  intro bits
  induction bits with
  | nil => intro sol acc; exact Nat.le_refl _
  | cons b rest ih =>
    intro sol acc
    simp only [ProblemSubsetSum.applyRulesAuxI]
    by_cases hopen : (sol.get_decision b).isNone
    · by_cases hbig : H < p.w b
      · rw [if_pos hopen, if_pos hbig]
        exact ih _ acc
      · rw [if_pos hopen, if_neg hbig]
        exact Nat.le_trans (Nat.le_add_right acc (p.w b)) (ih sol (acc + p.w b))
    · rw [if_neg hopen]
      exact ih sol acc

/-- Agreement of the closing loop of `apply_rules` with its ideal
variant when the final ideal accumulator stays below `2 ^ 32` (the
branching never consults the accumulator, so the two runs close the
same decisions). -/
theorem applyRulesAux_agree (p : ProblemSubsetSum) (H : Nat) :
    ∀ (bits : List Nat) (sol : MinimalSolution) (acc : Nat),
    (p.applyRulesAuxI H bits (sol, acc)).2 < 4294967296 →
    p.applyRulesAux H bits (sol, acc) = p.applyRulesAuxI H bits (sol, acc) := by
  intro bits
  induction bits with
  | nil => intro sol acc _; rfl
  | cons b rest ih =>
    intro sol acc hfin
    simp only [ProblemSubsetSum.applyRulesAuxI] at hfin
    simp only [ProblemSubsetSum.applyRulesAux, ProblemSubsetSum.applyRulesAuxI]
    by_cases hopen : (sol.get_decision b).isNone
    · by_cases hbig : H < p.w b
      · simp only [if_pos hopen, if_pos hbig] at hfin ⊢
        exact ih _ acc hfin
      · simp only [if_pos hopen, if_neg hbig] at hfin ⊢
        have hlt : acc + p.w b < 4294967296 :=
          Nat.lt_of_le_of_lt (applyRulesAuxI_mono p H rest sol (acc + p.w b)) hfin
        rw [wadd32_eq acc (p.w b) hlt]
        exact ih sol (acc + p.w b) hfin
    · simp only [if_neg hopen] at hfin ⊢
      exact ih sol acc hfin

/-- Agreement of `apply_rules` with its ideal variant on a feasible
solution: the headroom subtraction never underflows and the optimistic
accumulator never wraps. -/
theorem apply_rules_agree (p : ProblemSubsetSum) (s : MinimalSolution)
    (hm8 : p.problem_size ≤ 8 * s.mask.length)
    (hd8 : p.problem_size ≤ 8 * s.decisions.length)
    (hb : p.weights.sum < 4294967296) (hc : p.capacity < 4294967296)
    (hleg : p.solution_scoreI s ≤ p.capacity) :
    p.apply_rules s = p.apply_rulesI s := by
  have hrange : ∀ b ∈ List.range p.problem_size,
      b / 8 < ({ s with score := p.solution_scoreI s } : MinimalSolution).mask.length ∧
        b / 8 < ({ s with score := p.solution_scoreI s } : MinimalSolution).decisions.length := by
    intro b hb2
    have hb3 := List.mem_range.mp hb2
    constructor
    · show b / 8 < s.mask.length
      omega
    · show b / 8 < s.decisions.length
      omega
  obtain ⟨_, _, _, hacc⟩ :=
    applyRulesAux_spec p (p.capacity - p.solution_scoreI s) (List.range p.problem_size)
      (List.nodup_range _) { s with score := p.solution_scoreI s } (p.solution_scoreI s) hrange
  have hbound := score_plus_filter_le p s
    (fun b => (s.get_decision b).isNone &&
      decide (p.w b ≤ p.capacity - p.solution_scoreI s))
    (fun b h => (Bool.and_eq_true _ _ |>.mp h).1)
  have hfin : (p.applyRulesAuxI (p.capacity - p.solution_scoreI s)
      (List.range p.problem_size)
      ({ s with score := p.solution_scoreI s }, p.solution_scoreI s)).2 < 4294967296 := by
    rw [hacc]
    have hfilrw : (List.range p.problem_size).filter
        (fun b => (({ s with score := p.solution_scoreI s } : MinimalSolution).get_decision
          b).isNone && decide (p.w b ≤ p.capacity - p.solution_scoreI s)) =
        (List.range p.problem_size).filter
          (fun b => (s.get_decision b).isNone &&
            decide (p.w b ≤ p.capacity - p.solution_scoreI s)) := rfl
    rw [hfilrw]
    omega
  simp only [ProblemSubsetSum.apply_rules, ProblemSubsetSum.apply_rulesI]
  rw [solution_score_agree p s hb,
    wsub32_eq_sub p.capacity (p.solution_scoreI s) hleg hc,
    applyRulesAux_agree p (p.capacity - p.solution_scoreI s) (List.range p.problem_size)
      _ _ hfin]

/-- The ideal audit accumulator only grows. -/
theorem auditAuxI_mono (p : ProblemSubsetSum) (s : MinimalSolution) (H : Nat) :
    ∀ (bits : List Nat) (acc r : Nat),
    p.auditAuxI s H bits acc = some r → acc ≤ r := by
  intro bits
  induction bits with
  | nil =>
    intro acc r h
    simp only [ProblemSubsetSum.auditAuxI, Option.some.injEq] at h
    omega
  | cons b rest ih =>
    intro acc r h
    simp only [ProblemSubsetSum.auditAuxI] at h
    by_cases hopen : (s.get_decision b).isNone
    · by_cases hbig : H < p.w b
      · rw [if_pos hopen, if_pos hbig] at h
        simp at h
      · rw [if_pos hopen, if_neg hbig] at h
        exact Nat.le_trans (Nat.le_add_right acc (p.w b)) (ih (acc + p.w b) r h)
    · rw [if_neg hopen] at h
      exact ih acc r h

/-- A successful ideal audit returns at most the accumulator plus the
weights of the visited open decisions. -/
theorem auditAuxI_some_le (p : ProblemSubsetSum) (s : MinimalSolution) (H : Nat) :
    ∀ (bits : List Nat) (acc r : Nat),
    p.auditAuxI s H bits acc = some r →
    r ≤ acc + ((bits.filter (fun b => (s.get_decision b).isNone)).map p.w).sum := by
  intro bits
  induction bits with
  | nil =>
    intro acc r h
    simp only [ProblemSubsetSum.auditAuxI, Option.some.injEq] at h
    simp [← h]
  | cons b rest ih =>
    intro acc r h
    simp only [ProblemSubsetSum.auditAuxI] at h
    by_cases hopen : (s.get_decision b).isNone
    · by_cases hbig : H < p.w b
      · rw [if_pos hopen, if_pos hbig] at h
        simp at h
      · rw [if_pos hopen, if_neg hbig] at h
        have := ih (acc + p.w b) r h
        simp [List.filter_cons, hopen]
        omega
    · rw [if_neg hopen] at h
      have := ih acc r h
      simp [List.filter_cons, hopen]
      omega

/-- A failing ideal audit fails for every accumulator, in the wrapped
run too: the rejection depends only on the decisions and the
headroom. -/
theorem auditAux_none_of_idealNone (p : ProblemSubsetSum) (s : MinimalSolution) (H : Nat) :
    ∀ (bits : List Nat) (acc1 acc2 : Nat),
    p.auditAuxI s H bits acc1 = none → p.auditAux s H bits acc2 = none := by
  intro bits
  induction bits with
  | nil =>
    intro acc1 acc2 h
    simp [ProblemSubsetSum.auditAuxI] at h
  | cons b rest ih =>
    intro acc1 acc2 h
    simp only [ProblemSubsetSum.auditAuxI] at h
    simp only [ProblemSubsetSum.auditAux]
    by_cases hopen : (s.get_decision b).isNone
    · by_cases hbig : H < p.w b
      · rw [if_pos hopen, if_pos hbig]
      · rw [if_pos hopen, if_neg hbig] at h
        rw [if_pos hopen, if_neg hbig]
        exact ih (acc1 + p.w b) _ h
    · rw [if_neg hopen] at h
      rw [if_neg hopen]
      exact ih acc1 acc2 h

/-- Agreement of the audit loop with its ideal variant when every
successful ideal outcome is a `u32` value. -/
theorem auditAux_agree (p : ProblemSubsetSum) (s : MinimalSolution) (H : Nat) :
    ∀ (bits : List Nat) (acc : Nat),
    (∀ r, p.auditAuxI s H bits acc = some r → r < 4294967296) →
    p.auditAux s H bits acc = p.auditAuxI s H bits acc := by
  intro bits
  induction bits with
  | nil => intro acc _; rfl
  | cons b rest ih =>
    intro acc hcap
    simp only [ProblemSubsetSum.auditAuxI] at hcap
    simp only [ProblemSubsetSum.auditAux, ProblemSubsetSum.auditAuxI]
    by_cases hopen : (s.get_decision b).isNone
    · by_cases hbig : H < p.w b
      · simp only [if_pos hopen, if_pos hbig]
      · simp only [if_pos hopen, if_neg hbig] at hcap ⊢
        cases hres : p.auditAuxI s H rest (acc + p.w b) with
        | none =>
          exact auditAux_none_of_idealNone p s H rest (acc + p.w b)
            (wadd32 acc (p.w b)) hres
        | some r =>
          have hr : r < 4294967296 := hcap r hres
          have hmono := auditAuxI_mono p s H rest (acc + p.w b) r hres
          rw [wadd32_eq acc (p.w b) (by omega), ih (acc + p.w b) hcap, hres]
    · simp only [if_neg hopen] at hcap ⊢
      exact ih acc hcap

/-- Agreement of `rules_audit_passed` with its ideal variant: below the
`u32` bounds the wrapped audit accepts exactly when the ideal one
does. -/
theorem rules_audit_passed_agree (p : ProblemSubsetSum) (s : MinimalSolution)
    (hb : p.weights.sum < 4294967296) (hc : p.capacity < 4294967296) :
    p.rules_audit_passed s = p.rules_audit_passedI s := by
  simp only [ProblemSubsetSum.rules_audit_passed, ProblemSubsetSum.rules_audit_passedI]
  rw [solution_score_agree p s hb, solution_best_score_agree p s hb,
    solution_is_legal_agree p s hb]
  by_cases hleg : p.solution_scoreI s ≤ p.capacity
  · rw [wsub32_eq_sub p.capacity (p.solution_scoreI s) hleg hc]
    rw [auditAux_agree p s (p.capacity - p.solution_scoreI s) (List.range p.problem_size)
      (p.solution_scoreI s) ?_]
    intro r hr
    have h1 := auditAuxI_some_le p s (p.capacity - p.solution_scoreI s)
      (List.range p.problem_size) (p.solution_scoreI s) r hr
    have h2 := score_plus_filter_le p s (fun b => (s.get_decision b).isNone) (fun _ h => h)
    omega
  · have hfalse : p.solution_is_legalI s = false := by
      simp [ProblemSubsetSum.solution_is_legalI, hleg]
    rw [hfalse]
    simp

/-- Agreement of the repair loop of `random_solution` with its ideal
variant while the tracked weight is the unbounded score of the current
selection. -/
theorem randLegalAux_agree (p : ProblemSubsetSum) (hb : p.weights.sum < 4294967296) :
    ∀ (bits : List Nat) (sol : MinimalSolution) (weight : Nat),
    (∀ b ∈ bits, b < p.problem_size) →
    p.problem_size ≤ 8 * sol.mask.length →
    p.problem_size ≤ 8 * sol.decisions.length →
    weight = p.solution_scoreI sol →
    p.randLegalAux bits (sol, weight) = p.randLegalAuxI bits (sol, weight) := by
  intro bits
  induction bits with
  | nil => intro sol weight _ _ _ _; rfl
  | cons i rest ih =>
    intro sol weight hbits hm8 hd8 hw
    have hi : i < p.problem_size := hbits i (by simp)
    have him : i / 8 < sol.mask.length := by omega
    have hid : i / 8 < sol.decisions.length := by omega
    simp only [ProblemSubsetSum.randLegalAux, ProblemSubsetSum.randLegalAuxI]
    cases hgd : sol.get_decision i with
    | none => exact ih sol weight (fun b hb2 => hbits b (by simp [hb2])) hm8 hd8 hw
    | some v =>
      cases v with
      | false => exact ih sol weight (fun b hb2 => hbits b (by simp [hb2])) hm8 hd8 hw
      | true =>
        have hwi : p.w i ≤ weight := by
          rw [hw]
          exact w_le_scoreI p sol i hi hgd
        have hwB : weight < 4294967296 := by
          rw [hw]
          exact Nat.lt_of_le_of_lt (scoreI_le_weights_sum p sol) hb
        rw [wsub32_eq_sub weight (p.w i) hwi hwB]
        have hscore2 : weight - p.w i = p.solution_scoreI (sol.make_decision i false) := by
          have := solution_score_unmake_true p sol i hi him hid hgd
          omega
        by_cases hbrk : weight - p.w i < p.capacity
        · simp only [if_pos hbrk]
        · simp only [if_neg hbrk]
          have hlen := make_decision_lengths sol i false
          exact ih (sol.make_decision i false) (weight - p.w i)
            (fun b hb2 => hbits b (by simp [hb2]))
            (by rw [hlen.1]; exact hm8) (by rw [hlen.2]; exact hd8) hscore2

/-- Agreement of `random_solution` with its ideal variant under the
`u32` bounds: the legality test, the repair loop and the final rules
application all coincide. -/
theorem random_solution_agree (p : ProblemSubsetSum) (r : List Nat) (rs rb : Nat)
    (hb : p.weights.sum < 4294967296) (hc : p.capacity < 4294967296) :
    p.random_solution r rs rb = p.random_solutionI r rs rb := by
  obtain ⟨hsz0, hm0, hd0, hall0⟩ := random_base_props p.problem_size r rs rb
  have hm80 : p.problem_size ≤
      8 * (MinimalSolution.random p.problem_size r rs rb).mask.length := by
    rw [hm0]; omega
  have hd80 : p.problem_size ≤
      8 * (MinimalSolution.random p.problem_size r rs rb).decisions.length := by
    rw [hd0]; omega
  simp only [ProblemSubsetSum.random_solution, ProblemSubsetSum.random_solutionI]
  rw [solution_is_legal_agree p _ hb]
  by_cases hleg : p.solution_is_legalI (MinimalSolution.random p.problem_size r rs rb) = true
  · have hcond : ¬ (¬ p.solution_is_legalI
        (MinimalSolution.random p.problem_size r rs rb) = true) := by
      simp [hleg]
    simp only [if_neg hcond]
    exact apply_rules_agree p _ hm80 hd80 hb hc
      (by simpa [ProblemSubsetSum.solution_is_legalI] using hleg)
  · have hcond : ¬ p.solution_is_legalI
        (MinimalSolution.random p.problem_size r rs rb) = true := by
      simpa using hleg
    simp only [if_pos hcond]
    rw [solution_score_agree p _ hb]
    rw [randLegalAux_agree p hb (List.range p.problem_size) _ _
      (fun b hb2 => List.mem_range.mp hb2) hm80 hd80 rfl]
    obtain ⟨h1, h2, h3, _, _, h6⟩ := randLegalAux_spec p (List.range p.problem_size)
      (MinimalSolution.random p.problem_size r rs rb)
      (p.solution_scoreI (MinimalSolution.random p.problem_size r rs rb))
      (fun b hb2 => List.mem_range.mp hb2) hm80 hd80 rfl
    set rep := (p.randLegalAuxI (List.range p.problem_size)
      (MinimalSolution.random p.problem_size r rs rb,
        p.solution_scoreI (MinimalSolution.random p.problem_size r rs rb))).1 with hrep
    have hrleg : p.solution_scoreI rep ≤ p.capacity := by
      rcases h2 with h2 | h2
      · omega
      · have hscore0 : p.solution_scoreI rep = 0 := by
          unfold ProblemSubsetSum.solution_scoreI
          apply List.sum_eq_zero
          intro x hx
          obtain ⟨j, hj, rfl⟩ := List.mem_map.mp hx
          have hne := h2 j hj
          cases hgd : rep.get_decision j with
          | none => rfl
          | some b =>
            cases b with
            | false => rfl
            | true => exact absurd hgd hne
        omega
    have hm8r : p.problem_size ≤ 8 * rep.mask.length := by
      rw [h6.1]; exact hm80
    have hd8r : p.problem_size ≤ 8 * rep.decisions.length := by
      rw [h6.2.1]; exact hd80
    exact apply_rules_agree p rep hm8r hd8r hb hc hrleg

/-- Agreement of `starting_solution` with its ideal variant. -/
theorem starting_solution_agree (p : ProblemSubsetSum)
    (hb : p.weights.sum < 4294967296) (hc : p.capacity < 4294967296) :
    p.starting_solution = p.starting_solutionI := by
  simp only [ProblemSubsetSum.starting_solution, ProblemSubsetSum.starting_solutionI]
  rw [fix_scores_agree p _ hb]
  have hnew : ∀ j, (MinimalSolution.new p.problem_size).get_decision j = none := by
    intro j
    unfold MinimalSolution.get_decision MinimalSolution.new
    simp [get_bit_replicate_zero]
  have hscore0 : p.solution_scoreI (p.fix_scoresI (MinimalSolution.new p.problem_size)) = 0 := by
    unfold ProblemSubsetSum.solution_scoreI
    apply List.sum_eq_zero
    intro x hx
    obtain ⟨j, _, rfl⟩ := List.mem_map.mp hx
    have : (p.fix_scoresI (MinimalSolution.new p.problem_size)).get_decision j = none :=
      hnew j
    rw [this]
  have hmlen : (p.fix_scoresI (MinimalSolution.new p.problem_size)).mask.length =
      (p.problem_size + 7) / 8 := by
    simp [ProblemSubsetSum.fix_scoresI, MinimalSolution.new]
  have hdlen : (p.fix_scoresI (MinimalSolution.new p.problem_size)).decisions.length =
      (p.problem_size + 7) / 8 := by
    simp [ProblemSubsetSum.fix_scoresI, MinimalSolution.new]
  exact apply_rules_agree p _ (by rw [hmlen]; omega) (by rw [hdlen]; omega) hb hc
    (by rw [hscore0]; exact Nat.zero_le _)

/-- Agreement of `children_of_solution` with its ideal variant below an
audited parent: the audit's headroom keeps both children feasible, so
the rules application never wraps. -/
theorem children_of_solution_agree (p : ProblemSubsetSum) (s : MinimalSolution)
    (haud : p.rules_audit_passedI s = true)
    (hm8 : p.problem_size ≤ 8 * s.mask.length)
    (hd8 : p.problem_size ≤ 8 * s.decisions.length)
    (hb : p.weights.sum < 4294967296) (hc : p.capacity < 4294967296) :
    p.children_of_solution s = p.children_of_solutionI s := by
  simp only [ProblemSubsetSum.children_of_solution, ProblemSubsetSum.children_of_solutionI]
  cases hfo : p.first_open_decision s with
  | none => rfl
  | some i =>
    obtain ⟨hi, hopen⟩ := first_open_some p s i hfo
    obtain ⟨hleg, _, hfit⟩ := audit_passed_facts p s haud
    have him : i / 8 < s.mask.length := by omega
    have hid : i / 8 < s.decisions.length := by omega
    have hwfit := hfit i hi hopen
    have hlent := make_decision_lengths s i true
    have hlenf := make_decision_lengths s i false
    have hlegt : p.solution_scoreI (s.make_decision i true) ≤ p.capacity := by
      rw [solution_score_make_true p s i hi him hid (Option.isNone_iff_eq_none.mp hopen)]
      omega
    have hlegf : p.solution_scoreI (s.make_decision i false) ≤ p.capacity := by
      rw [solution_score_make_false p s i him hid
        (by rw [Option.isNone_iff_eq_none.mp hopen]; simp)]
      exact hleg
    show [p.apply_rules (s.make_decision i true), p.apply_rules (s.make_decision i false)] =
      [p.apply_rulesI (s.make_decision i true), p.apply_rulesI (s.make_decision i false)]
    rw [apply_rules_agree p (s.make_decision i true)
        (by rw [hlent.1]; exact hm8) (by rw [hlent.2]; exact hd8) hb hc hlegt,
      apply_rules_agree p (s.make_decision i false)
        (by rw [hlenf.1]; exact hm8) (by rw [hlenf.2]; exact hd8) hb hc hlegf]

/-- Agreement of the driver invariant with its ideal variant (the audit
agreement, pointwise over the container and the best slot). -/
theorem InvDriver_agree (p : ProblemSubsetSum) (st : DriverState)
    (hb : p.weights.sum < 4294967296) (hc : p.capacity < 4294967296) :
    InvDriver p st = InvDriverI p st := by
  have h : ∀ x, p.rules_audit_passed x = p.rules_audit_passedI x :=
    fun x => rules_audit_passed_agree p x hb hc
  simp only [InvDriver, InvDriverI, h]

/-- Agreement of the driver-loop body with its ideal variant on an
audited, well-sized popped solution. -/
theorem driverBody_agree (p : ProblemSubsetSum) (best : MinimalSolution)
    (rest : List MinimalSolution) (next : MinimalSolution)
    (haud : p.rules_audit_passedI next = true)
    (hm8 : p.problem_size ≤ 8 * next.mask.length)
    (hd8 : p.problem_size ≤ 8 * next.decisions.length)
    (hb : p.weights.sum < 4294967296) (hc : p.capacity < 4294967296) :
    driverBody p best rest next = driverBodyI p best rest next := by
  simp only [driverBody, driverBodyI]
  rw [children_of_solution_agree p next haud hm8 hd8 hb hc]

/-- Agreement of the driver loop with its ideal variant from any state
satisfying the ideal invariant: with the `u32` bounds the wrapped run
visits exactly the states of the ideal run. -/
theorem driverLoop_agree (p : ProblemSubsetSum) (chooser : Nat → Nat) (stopper : Nat → Bool)
    (hb : p.weights.sum < 4294967296) (hc : p.capacity < 4294967296) :
    ∀ (fuel n : Nat) (st : DriverState),
    (∀ x ∈ st.container, solOKI p x) → bestOKI p st.best →
    driverLoop p chooser stopper fuel n st = driverLoopI p chooser stopper fuel n st := by
  intro fuel
  induction fuel with
  | zero => intro n st _ _; rfl
  | succ f ih =>
    intro n st hcont hbest
    simp only [driverLoop, driverLoopI]
    cases hpop : popAt st.container (chooser n) with
    | none => rfl
    | some pr =>
      obtain ⟨next, rest⟩ := pr
      obtain ⟨hnmem, hrmem⟩ := popAt_mem _ _ _ _ hpop
      obtain ⟨hnwf, hnaud⟩ := hcont next hnmem
      obtain ⟨hm8n, hd8n⟩ := solWF_bounds p next hnwf
      have hbody := driverBody_agree p st.best rest next hnaud hm8n hd8n hb hc
      have hrest : ∀ x ∈ rest, solOKI p x := fun x hx => hcont x (hrmem x hx)
      obtain ⟨hc1, hb1⟩ := driverBody_inv p st.best rest next hrest hbest ⟨hnwf, hnaud⟩
      show (if ((driverBody p st.best rest next).container.isEmpty || stopper n) = true
          then (driverBody p st.best rest next).best
          else driverLoop p chooser stopper f (n + 1) (driverBody p st.best rest next)) =
        (if ((driverBodyI p st.best rest next).container.isEmpty || stopper n) = true
          then (driverBodyI p st.best rest next).best
          else driverLoopI p chooser stopper f (n + 1) (driverBodyI p st.best rest next))
      rw [hbody]
      by_cases hstop : ((driverBodyI p st.best rest next).container.isEmpty || stopper n) = true
      · rw [if_pos hstop, if_pos hstop]
      · rw [if_neg hstop, if_neg hstop]
        exact ih (n + 1) _ hc1 hb1

/-- C7 counterexample: the original claim fails on a legal problem with
`u32`-representable weights whose sum exceeds `2 ^ 32`.  On the
all-open (legal, score 0) three-decision solution, `apply_rules` wraps
its optimistic accumulator to 1610612736 and stores it as the best
score, while the audit's recomputation through `solution_best_score`
early-returns the capacity 3221225472; the stored and the recomputed
best scores differ, so `rules_audit_passed` fails (in the program, the
`assert_eq!` panics in release and `apply_rules` itself panics on the
overflow in debug). -/
theorem c7_apply_rules_overflow_counterexample :
    c7P.is_legal = true ∧
      c7P.solution_is_legal (MinimalSolution.new 3) = true ∧
      c7P.rules_audit_passed (c7P.apply_rules (MinimalSolution.new 3)) = false := by
  decide

/-- C7 (corrected): on a legal subset-sum problem whose weight sum and
capacity fit in `u32` (so that the `ScoreType` arithmetic never wraps)
and a feasible solution, `apply_rules` establishes
`rules_audit_passed` (score and best score re-derived from scratch
agree with the stored fields, and no open decision's weight exceeds the
remaining headroom), and a second call of `apply_rules` returns the
solution -- mask, decisions, score, best score, and all --
unchanged. -/
theorem c7_apply_rules_audit_idempotent (p : ProblemSubsetSum) (s : MinimalSolution)
    (_hpl : p.is_legal = true)
    (hsl : p.solution_is_legal s = true)
    (hm8 : p.problem_size ≤ 8 * s.mask.length)
    (hd8 : p.problem_size ≤ 8 * s.decisions.length)
    (hb : p.weights.sum < 4294967296)
    (hc : p.capacity < 4294967296) :
    p.rules_audit_passed (p.apply_rules s) = true ∧
      p.apply_rules (p.apply_rules s) = p.apply_rules s := by
  have hslI : p.solution_scoreI s ≤ p.capacity := by
    have h := solution_score_agree p s hb
    unfold ProblemSubsetSum.solution_is_legal at hsl
    rw [h] at hsl
    exact of_decide_eq_true hsl
  have hslI2 : p.solution_is_legalI s = true := by
    simp [ProblemSubsetSum.solution_is_legalI, hslI]
  have hag := apply_rules_agree p s hm8 hd8 hb hc hslI
  obtain ⟨hstruct, _, _, _⟩ := apply_rules_main p s hm8 hd8
  have hm8r : p.problem_size ≤ 8 * (p.apply_rulesI s).mask.length := by
    rw [hstruct.2.2.1]; exact hm8
  have hd8r : p.problem_size ≤ 8 * (p.apply_rulesI s).decisions.length := by
    rw [hstruct.2.2.2]; exact hd8
  have hlegr : p.solution_scoreI (p.apply_rulesI s) ≤ p.capacity := by
    rw [apply_rules_solution_score p s hm8 hd8]
    exact hslI
  constructor
  · rw [hag, rules_audit_passed_agree p _ hb hc]
    exact apply_rules_audit_passed p s hslI2 hm8 hd8
  · rw [hag, apply_rules_agree p (p.apply_rulesI s) hm8r hd8r hb hc hlegr]
    rw [apply_rules_idem p s hm8 hd8]

/-- Closed witness for C7 on the two-item problem (weights 2 and 3,
capacity 4) and the all-open two-decision solution. -/
theorem c7_apply_rules_audit_idempotent_witness :
    ProblemSubsetSum.rules_audit_passed ⟨[2, 3], 4⟩
        (ProblemSubsetSum.apply_rules ⟨[2, 3], 4⟩ (MinimalSolution.new 2)) = true ∧
      ProblemSubsetSum.apply_rules ⟨[2, 3], 4⟩
          (ProblemSubsetSum.apply_rules ⟨[2, 3], 4⟩ (MinimalSolution.new 2)) =
        ProblemSubsetSum.apply_rules ⟨[2, 3], 4⟩ (MinimalSolution.new 2) :=
  c7_apply_rules_audit_idempotent ⟨[2, 3], 4⟩ (MinimalSolution.new 2)
    (by decide) (by decide) (by decide) (by decide) (by decide) (by decide)

/-- C8 counterexample: the original claim fails on a legal problem with
`u32`-representable weights whose sum exceeds `2 ^ 32`.  The random
draw `[255]` selects all seven items; the four weights `2 ^ 31` cancel
modulo `2 ^ 32`, so the wrapped `solution_score` is 3, the legality
check against capacity 5 passes, and `random_solution` skips its repair
loop.  The driver seeds its best slot with that solution and (under an
immediate deadline) returns it: the program reports it legal with
stored score 3, yet the true, unwrapped weight of the selection is
8589934595, far above the capacity -- the returned best is not a
feasible solution. -/
theorem c8_find_best_solution_overflow_counterexample :
    c8P.is_legal = true ∧
      c8P.solution_is_legal
        (find_best_solution c8P [255] 0 0 (fun _ => 0) (fun _ => true) 1) = true ∧
      (find_best_solution c8P [255] 0 0 (fun _ => 0) (fun _ => true) 1).score ≤
        c8P.capacity ∧
      c8P.solution_scoreI
        (find_best_solution c8P [255] 0 0 (fun _ => 0) (fun _ => true) 1) = 8589934595 ∧
      c8P.capacity = 5 := by
  decide

/-- C8 (corrected): for every legal subset-sum problem whose weight sum
and capacity fit in `u32` (so that the `ScoreType` arithmetic never
wraps), from the first step of `find_best_solution` on, the
best-solution slot holds a complete, feasible (audited) solution -- it
is initialised from `random_solution` and only ever replaced through
`new_best_solution` with audited complete solutions, as captured by the
invariant `InvDriver` holding at the initial state and being preserved
by the loop -- and the returned solution is complete, feasible, and
satisfies `score ≤ capacity`.  Quantified over the container pop
policy (`chooser`), the two wall-clock deadlines (`stopper`), the loop
fuel, and the random draws of `random_solution`. -/
theorem c8_find_best_solution_feasible (p : ProblemSubsetSum) (r : List Nat) (rs rb : Nat)
    (chooser : Nat → Nat) (stopper : Nat → Bool) (fuel : Nat)
    (_hpl : p.is_legal = true)
    (hb : p.weights.sum < 4294967296)
    (hc : p.capacity < 4294967296) :
    InvDriver p { container := [p.starting_solution],
                  best := p.random_solution r rs rb } = true ∧
    p.solution_is_complete (find_best_solution p r rs rb chooser stopper fuel) = true ∧
    p.solution_is_legal (find_best_solution p r rs rb chooser stopper fuel) = true ∧
    (find_best_solution p r rs rb chooser stopper fuel).score ≤ p.capacity := by
  have hss := starting_solution_agree p hb hc
  have hrs := random_solution_agree p r rs rb hb hc
  obtain ⟨raud, rcomp, rsz, rml, rdl⟩ := random_solution_props p r rs rb
  obtain ⟨saud, ssz, sml, sdl⟩ := starting_solution_props p
  have hbest0 : bestOKI p (p.random_solutionI r rs rb) :=
    ⟨⟨(solWF_iff p _).mpr ⟨rsz, rml, rdl⟩, raud⟩, rcomp⟩
  have hcont0 : ∀ x ∈ [p.starting_solutionI], solOKI p x := by
    intro x hx
    rw [List.mem_singleton.mp hx]
    exact ⟨(solWF_iff p _).mpr ⟨ssz, sml, sdl⟩, saud⟩
  have hfind : find_best_solution p r rs rb chooser stopper fuel =
      driverLoopI p chooser stopper fuel 0
        { container := [p.starting_solutionI], best := p.random_solutionI r rs rb } := by
    unfold find_best_solution
    rw [hss, hrs]
    exact driverLoop_agree p chooser stopper hb hc fuel 0 _ hcont0 hbest0
  have hfin : bestOKI p (driverLoopI p chooser stopper fuel 0
      { container := [p.starting_solutionI], best := p.random_solutionI r rs rb }) :=
    driverLoop_bestOK p chooser stopper fuel 0 _ hcont0 hbest0
  obtain ⟨hlegI, hscore⟩ := bestOK_feasible p _ hfin
  refine ⟨?_, ?_, ?_, ?_⟩
  · rw [hss, hrs, InvDriver_agree p _ hb hc]
    exact (InvDriver_iff p _).mpr ⟨hcont0, hbest0⟩
  · rw [hfind]
    exact hfin.2
  · rw [hfind]
    unfold ProblemSubsetSum.solution_is_legal
    rw [solution_score_agree p _ hb]
    unfold ProblemSubsetSum.solution_is_legalI at hlegI
    exact hlegI
  · rw [hfind]
    exact hscore

/-- Closed witness for C8: the two-item problem (weights 2 and 3,
capacity 4), a LIFO-like chooser, no deadline, fuel 8. -/
theorem c8_find_best_solution_feasible_witness :
    InvDriver ⟨[2, 3], 4⟩
        { container := [ProblemSubsetSum.starting_solution ⟨[2, 3], 4⟩],
          best := ProblemSubsetSum.random_solution ⟨[2, 3], 4⟩ [255] 7 9 } = true ∧
      ProblemSubsetSum.solution_is_complete ⟨[2, 3], 4⟩
          (find_best_solution ⟨[2, 3], 4⟩ [255] 7 9 (fun _ => 0) (fun _ => false) 8) = true ∧
      ProblemSubsetSum.solution_is_legal ⟨[2, 3], 4⟩
          (find_best_solution ⟨[2, 3], 4⟩ [255] 7 9 (fun _ => 0) (fun _ => false) 8) = true ∧
      (find_best_solution ⟨[2, 3], 4⟩ [255] 7 9 (fun _ => 0) (fun _ => false) 8).score ≤
        (⟨[2, 3], 4⟩ : ProblemSubsetSum).capacity :=
  c8_find_best_solution_feasible ⟨[2, 3], 4⟩ [255] 7 9 (fun _ => 0) (fun _ => false) 8
    (by decide) (by decide) (by decide)

end MHM
